import Mathlib

/-!
Verification of the uefi-firmware-manager EDK2 variable-store code.

Shallow embedding conventions:
* Go byte slices are `List Nat` with every entry `< 256` where well-formedness
  matters; out-of-range reads (which panic in Go) are totalised with default 0
  and every theorem carries hypotheses keeping the modelled reads in bounds.
* Go machine integers are `Nat` with explicit truncation: `le w v` encodes the
  low `8*w` bits of `v` little-endian, exactly like Go's
  `binary.LittleEndian.PutUintN` after a converting cast, and `rd` is the
  corresponding read.
* Go strings are modelled as their byte sequences (`List Nat`).
-/

namespace UefiFw

/-- Little-endian encoding of the low `8*w` bits of `v`, as `w` bytes.
Models `binary.LittleEndian.PutUint16/32/64` composed with Go's truncating
integer conversions. -/
def le : Nat → Nat → List Nat
  | 0, _ => []
  | w + 1, v => v % 256 :: le w (v / 256)

/-- Little-endian read of `w` bytes of `data` at offset `off`
(`binary.LittleEndian.Uint16/32/64`); reads past the end yield 0. -/
def rd (data : List Nat) : Nat → Nat → Nat
  | _, 0 => 0
  | off, w + 1 => data.getD off 0 + 256 * rd data (off + 1) w

/-- `(pos + 3) &^ 3` from the Go source: round `n` up to a multiple of 4. -/
def align4 (n : Nat) : Nat := (n + 3) / 4 * 4

/-- `(4 - len%4) % 4`: the number of 0xFF padding bytes `bytesVar` appends. -/
def pad4 (n : Nat) : Nat := (4 - n % 4) % 4

/-- Byte sequence of an ASCII Lean string literal (UTF-8 bytes of a Go string
literal; all literals used here are ASCII). -/
def strBytes (s : String) : List Nat := s.data.map Char.toNat

theorem le_length (w v : Nat) : (le w v).length = w := by
  induction w generalizing v with
  | zero => rfl
  | succ w ih => simp [le, ih]

theorem rd_shift (x : Nat) (t : List Nat) (k w : Nat) :
    rd (x :: t) (k + 1) w = rd t k w := by
  induction w generalizing k with
  | zero => rfl
  | succ w ih => simp [rd, ih, List.getD_cons_succ]

theorem rd_append (xs ys : List Nat) (k w : Nat) :
    rd (xs ++ ys) (xs.length + k) w = rd ys k w := by
  induction xs with
  | nil => simp
  | cons x xs ih =>
      have h : (x :: xs).length + k = (xs.length + k) + 1 := by
        simp [List.length_cons]; omega
      rw [h, List.cons_append, rd_shift, ih]

theorem rd_append_zero (xs ys : List Nat) (w : Nat) :
    rd (xs ++ ys) xs.length w = rd ys 0 w := by
  simpa using rd_append xs ys 0 w

theorem rd_le_of_lt (w v : Nat) (rest : List Nat) (h : v < 2 ^ (8 * w)) :
    rd (le w v ++ rest) 0 w = v := by
  induction w generalizing v rest with
  | zero =>
      simp [rd]
      omega
  | succ w ih =>
      have hv : v / 256 < 2 ^ (8 * w) := by
        have h2 : (2 : Nat) ^ (8 * (w + 1)) = 2 ^ (8 * w) * 256 := by
          rw [Nat.mul_succ, pow_add]; norm_num
        rw [h2] at h
        omega
      simp only [le, rd, List.cons_append, List.getD_cons_zero]
      rw [rd_shift, ih (v / 256) rest hv]
      omega

theorem getD_append_left (xs ys : List Nat) (i : Nat) (h : i < xs.length) :
    (xs ++ ys).getD i 0 = xs.getD i 0 :=
  List.getD_append xs ys 0 i h

theorem getD_at_concat (a : List Nat) (x : Nat) (b : List Nat) :
    (a ++ x :: b).getD a.length 0 = x := by
  rw [List.getD_append_right a (x :: b) 0 a.length (le_refl a.length)]
  simp

theorem rd_at_concat (a : List Nat) (w v : Nat) (b : List Nat)
    (h : v < 2 ^ (8 * w)) :
    rd (a ++ (le w v ++ b)) a.length w = v := by
  rw [rd_append_zero, rd_le_of_lt _ _ _ h]

theorem align4_dvd (n : Nat) : 4 ∣ align4 n := Dvd.intro_left _ rfl

theorem align4_ge (n : Nat) : n ≤ align4 n := by
  unfold align4; omega

theorem align4_lt (n : Nat) : align4 n < n + 4 := by
  unfold align4; omega

theorem align4_add_left (p n : Nat) (hp : 4 ∣ p) :
    align4 (p + n) = p + align4 n := by
  obtain ⟨q, rfl⟩ := hp
  unfold align4
  omega

theorem align4_eq_add_pad4 (n : Nat) : align4 n = n + pad4 n := by
  unfold align4 pad4; omega

theorem align4_of_dvd (n : Nat) (h : 4 ∣ n) : align4 n = n := by
  obtain ⟨q, rfl⟩ := h; unfold align4; omega

theorem pad4_dvd (n : Nat) : 4 ∣ (n + pad4 n) := by
  unfold pad4; omega

/-- The fields Go's `time.Time` exposes through `Year()..Second()` and
`Nanosecond()`, as stored for an EFI variable.  `time.Date` normalisation is
not modelled; theorems about times carry in-range hypotheses under which the
normalisation is the identity. -/
structure EfiTime where
  year : Nat
  month : Nat
  day : Nat
  hour : Nat
  minute : Nat
  second : Nat
  ns : Nat
  deriving DecidableEq, Repr

/-- `efi.EfiVar` (src/efi/efivarlist.go).  `Name` is the UCS-2 code-unit
sequence without the terminator (`*UCS16String`); `Guid` is the 16-byte wire
form (the `GUID` type is absent from src; modelled from the spec as its wire
bytes, on which equality of canonical strings coincides with equality of
bytes). -/
structure EfiVar where
  Name : List Nat
  Guid : List Nat
  Attr : Nat
  Data : List Nat
  Count : Nat
  Time : Option EfiTime
  PkIdx : Nat
  deriving DecidableEq, Repr

/-- Modelled from the spec: UCS-2 encode (§4.1), the byte form of a
`UCS16String` including the 16-bit zero terminator (`Name.Bytes()`,
absent from src). -/
def ucs16Bytes (units : List Nat) : List Nat :=
  (units.map (le 2)).flatten ++ [0, 0]

/-- `Name.Size()`: byte length of the UCS-2 name including the terminator. -/
def nameSize (units : List Nat) : Nat := 2 * units.length + 2

theorem ucs16_flatten_length (units : List Nat) :
    ((units.map (le 2)).flatten).length = 2 * units.length := by
  induction units with
  | nil => rfl
  | cons u us ih =>
      simp only [List.map_cons, List.flatten_cons, List.length_append,
        le_length, ih, List.length_cons]
      omega

theorem ucs16Bytes_length (units : List Nat) :
    (ucs16Bytes units).length = nameSize units := by
  unfold ucs16Bytes nameSize
  rw [List.length_append, ucs16_flatten_length]
  rfl

/-- Modelled from the spec: UCS-2 `decode_at` (§4.1) — read 16-bit units until
the first zero unit or the end of the buffer (`efi.FromUCS16`, absent from
src).  Fuel-based recursion; the offset advances by 2 each step so
`data.length` fuel always suffices. -/
def fromUCS16Aux (data : List Nat) : Nat → Nat → List Nat
  | 0, _ => []
  | fuel + 1, off =>
      if off + 1 < data.length then
        let u := rd data off 2
        if u = 0 then [] else u :: fromUCS16Aux data fuel (off + 2)
      else []

def fromUCS16 (data : List Nat) (off : Nat) : List Nat :=
  fromUCS16Aux data data.length off

/-- Modelled from the spec: GUID wire form (§4.1) — `efi.ParseBinGUID`,
absent from src, reads the 16 wire bytes at `off`. -/
def parseBinGUID (data : List Nat) (off : Nat) : List Nat :=
  (List.range 16).map fun i => data.getD (off + i) 0

/-- `EfiVar.BytesTime` (src/efi/efivarlist.go): serialize the optional
EFI_TIME; note the nanoseconds are stored divided by 1000. -/
def bytesTime : Option EfiTime → List Nat
  | none => List.replicate 16 0
  | some t =>
      le 2 t.year ++
      [t.month % 256, t.day % 256, t.hour % 256, t.minute % 256,
       t.second % 256, 0] ++
      le 4 (t.ns / 1000) ++ le 2 0 ++ [0, 0]

theorem bytesTime_length (t : Option EfiTime) : (bytesTime t).length = 16 := by
  cases t <;> simp [bytesTime, le_length, le]

/-- `EfiVar.ParseTime` (src/efi/efivarlist.go): parse an EFI_TIME at `off`.
A too-short buffer returns an error which `GetVarList` discards, leaving the
time `none`; a zero year also leaves it `none`.  Note the stored nanosecond
field is divided by 1000 on the way in (`time.Date(..., int(ns)/1000, ...)`). -/
def parseTime (data : List Nat) (off : Nat) : Option EfiTime :=
  if data.length < off + 16 then none
  else
    let year := rd data off 2
    if year = 0 then none
    else
      some ⟨year, data.getD (off + 2) 0, data.getD (off + 3) 0,
        data.getD (off + 4) 0, data.getD (off + 5) 0, data.getD (off + 6) 0,
        rd data (off + 8) 4 / 1000⟩

/-- `Edk2VarStore.bytesVar` (src/varstore/edk2.go): serialize one variable
record and pad to a 4-byte boundary with 0xFF.  The pad length is computed
from the blob length, `44 + len(Guid.Bytes()) + name size + data size`
(`Guid.Bytes()` always yields 16 bytes; the model carries the Guid's actual
list length, equal to 16 under `WfVar`). -/
def bytesVar (v : EfiVar) : List Nat :=
  le 2 0x55aa ++ [0x3f, 0] ++ le 4 v.Attr ++ le 8 v.Count ++
  bytesTime v.Time ++ le 4 v.PkIdx ++ le 4 (nameSize v.Name) ++
  le 4 v.Data.length ++ v.Guid ++ ucs16Bytes v.Name ++ v.Data ++
  List.replicate (pad4 (44 + v.Guid.length + nameSize v.Name + v.Data.length))
    0xff

/-- Raw (unpadded) length of one serialized record. -/
def rawLen (v : EfiVar) : Nat := 60 + nameSize v.Name + v.Data.length

theorem bytesVar_length (v : EfiVar) (hg : v.Guid.length = 16) :
    (bytesVar v).length = align4 (rawLen v) := by
  unfold bytesVar rawLen
  simp only [List.length_append, List.length_replicate, le_length,
    bytesTime_length, ucs16Bytes_length, List.length_cons, List.length_nil,
    hg]
  unfold align4 pad4
  omega

/-- The body of the `state == 0x3f` branch of `Edk2VarStore.GetVarList`
(src/varstore/edk2.go lines 47-59): decode the record at `pos`.  The data
slice bounds reproduce Go's `uint32` arithmetic, wrapping modulo 2^32. -/
def parseVar (data : List Nat) (pos : Nat) : EfiVar :=
  let nsize := rd data (pos + 36) 4
  let dsize := rd data (pos + 40) 4
  let lo := (pos + 44 + 16 + nsize) % 2 ^ 32
  let hi := (pos + 44 + 16 + nsize + dsize) % 2 ^ 32
  { Name := fromUCS16 data (pos + 44 + 16)
    Guid := parseBinGUID data (pos + 44)
    Attr := rd data (pos + 4) 4
    Data := (data.drop lo).take (hi - lo)
    Count := rd data (pos + 8) 8
    Time := parseTime data (pos + 16)
    PkIdx := rd data (pos + 32) 4 }

/-- `efi.EfiVarList`: the Go map is modelled as an association list keyed by
the variable name's code units (Go keys are the UCS-2 decoded strings; on
names the two key spaces are in bijection).  `insertVar` is map assignment:
replace in place if present, else append. -/
abbrev EfiVarList := List (List Nat × EfiVar)

def insertVar : EfiVarList → List Nat → EfiVar → EfiVarList
  | [], k, v => [(k, v)]
  | (k', v') :: t, k, v =>
      if k' = k then (k, v) :: t else (k', v') :: insertVar t k v

def lookupVar : EfiVarList → List Nat → Option EfiVar
  | [], _ => none
  | (k', v') :: t, k => if k' = k then some v' else lookupVar t k

/-- Byte-wise lexicographic strict order on keys: the order `sort.Strings`
sorts Go strings by (UTF-8 byte order; on the code-unit key space the two
agree for all names whose characters lie in the basic multilingual plane). -/
def lexLt : List Nat → List Nat → Bool
  | [], [] => false
  | [], _ :: _ => true
  | _ :: _, [] => false
  | a :: as, b :: bs => if a < b then true else if b < a then false else lexLt as bs

def lexLe (a b : List Nat) : Bool := !lexLt b a

/-- Insertion sort by `lexLe`; models `sort.Strings(keys)`. -/
def insortKey (k : List Nat) : List (List Nat) → List (List Nat)
  | [] => [k]
  | k' :: t => if lexLe k k' then k :: k' :: t else k' :: insortKey k t

def sortKeys : List (List Nat) → List (List Nat)
  | [] => []
  | k :: t => insortKey k (sortKeys t)

/-- One iteration step plus loop of `Edk2VarStore.GetVarList`
(src/varstore/edk2.go lines 31-66).  Fuel-based: the cursor strictly
increases by at least 60 per record, so `endPos - start + 1` fuel never runs
out on the walks the theorems describe. -/
def getVarListAux (data : List Nat) (endPos : Nat) :
    Nat → Nat → EfiVarList → EfiVarList
  | 0, _, acc => acc
  | fuel + 1, pos, acc =>
      if pos < endPos then
        let magic := rd data pos 2
        if magic = 0x55aa then
          let state := data.getD (pos + 2) 0
          let nsize := rd data (pos + 36) 4
          let dsize := rd data (pos + 40) 4
          let acc' :=
            if state = 0x3f then
              let v := parseVar data pos
              insertVar acc v.Name v
            else acc
          getVarListAux data endPos fuel (align4 (pos + 44 + 16 + nsize + dsize)) acc'
        else acc
      else acc

/-- `Edk2VarStore.GetVarList`: walk the variable region `[start, endPos)`.
The Go function also returns an error value that is always `nil`. -/
def getVarList (data : List Nat) (start endPos : Nat) : EfiVarList :=
  getVarListAux data endPos (endPos - start + 1) start []

/-- `Edk2VarStore.bytesVarList` (src/varstore/edk2.go lines 246-262): encode
all records in lexicographic key order; `none` models the
"varstore is too small" (VarstoreOverflow) error, in which case no bytes are
produced. -/
def bytesVarList (start endPos : Nat) (varlist : EfiVarList) :
    Option (List Nat) :=
  let keys := sortKeys (varlist.map Prod.fst)
  let blob := keys.flatMap fun k =>
    match lookupVar varlist k with
    | some v => bytesVar v
    | none => []
  if (blob.length : Int) > (endPos : Int) - (start : Int) then none
  else some blob

/-- `Edk2VarStore.bytesVarStore` (src/varstore/edk2.go lines 264-280):
prefix of the image, encoded varlist, 0xFF padding up to `endPos`, rest of
the image. -/
def bytesVarStore (data : List Nat) (start endPos : Nat)
    (varlist : EfiVarList) : Option (List Nat) :=
  (bytesVarList start endPos varlist).map fun blob =>
    data.take start ++ blob ++
      List.replicate (endPos - (start + blob.length)) 0xff ++ data.drop endPos

/-- NvData volume GUID fff12b8d-7696-4c8b-a985-2747075b4f50 in wire form
(`efi.NvData`; the GUID registry is absent from src, value from the spec). -/
def nvDataGuidBytes : List Nat :=
  [0x8d, 0x2b, 0xf1, 0xff, 0x96, 0x76, 0x8b, 0x4c,
   0xa9, 0x85, 0x27, 0x47, 0x07, 0x5b, 0x4f, 0x50]

/-- AuthVars store GUID aaf32c78-947b-439a-a180-2e144ec37792 in wire form
(`efi.AuthVars`, value from the spec). -/
def authVarsGuidBytes : List Nat :=
  [0x78, 0x2c, 0xf3, 0xaa, 0x7b, 0x94, 0x9a, 0x43,
   0xa1, 0x80, 0x2e, 0x14, 0x4e, 0xc3, 0x77, 0x92]

/-- Modelled from the spec: the "FFS GUID" checked by `find_nv_data`
(`efi.Ffs`, absent from src); the standard EFI_FIRMWARE_FILE_SYSTEM2_GUID
8c8ce578-8a3d-4f1c-9935-896185c32dd3 in wire form. -/
def ffsGuidBytes : List Nat :=
  [0x78, 0xe5, 0x8c, 0x8c, 0x3d, 0x8a, 0x1c, 0x4f,
   0x99, 0x35, 0x89, 0x61, 0x85, 0xc3, 0x2d, 0xd3]

/-- EFI global-variable GUID 8be4df61-93ca-11d2-aa0d-00e098032b8c in wire form
(`efi.EFI_GLOBAL_VARIABLE_GUID`, value from the spec). -/
def globalVariableGuidBytes : List Nat :=
  [0x61, 0xdf, 0xe4, 0x8b, 0xca, 0x93, 0xd2, 0x11,
   0xaa, 0x0d, 0x00, 0xe0, 0x98, 0x03, 0x2b, 0x8c]

/-- Go's `int(tlen)` for a `uint64` value: two's-complement reinterpretation
into a signed 64-bit integer. -/
def int64OfUint64 (t : Nat) : Int :=
  if t < 2 ^ 63 then (t : Int) else (t : Int) - 2 ^ 64

/-- `Edk2VarStore.findNvData` (src/varstore/edk2.go lines 83-98), fuel-based.
`some (-1)` is the scan's own not-found result; `none` models abnormal
behaviour the Go code exhibits outside the claims' scope (an infinite loop on
a zero FFS length, or a panic reading a GUID at a negative offset). -/
def findNvDataAux (data : List Nat) : Nat → Int → Option Int
  | 0, _ => none
  | fuel + 1, offset =>
      if offset + 64 < (data.length : Int) then
        if offset < 0 then none
        else
          let o := offset.toNat
          if parseBinGUID data (o + 16) = nvDataGuidBytes then some offset
          else if parseBinGUID data (o + 16) = ffsGuidBytes then
            findNvDataAux data fuel (offset + int64OfUint64 (rd data (o + 32) 8))
          else findNvDataAux data fuel (offset + 1024)
      else some (-1)

def findNvData (data : List Nat) : Option Int :=
  findNvDataAux data (data.length + 1) 0

/-- The error kinds the parse phase can surface, one per `fmt.Errorf` site in
`parseVolume`/`parseVarstore`. -/
inductive VErr where
  | notFound      -- "varstore not found"
  | badSig        -- "invalid signature"
  | notVolume     -- "not a volume"
  | storeGuid     -- "unknown varstore guid"
  | storeFmt      -- "unknown varstore format"
  | storeState    -- "unknown varstore state"
  deriving DecidableEq, Repr

instance : DecidableEq (Except VErr (Nat × Nat))
  | .error a, .error b => decidable_of_iff (a = b) (by simp)
  | .ok a, .ok b => decidable_of_iff (a = b) (by simp)
  | .error _, .ok _ => isFalse (by simp)
  | .ok _, .error _ => isFalse (by simp)

/-- `Edk2VarStore.parseVarstore` (src/varstore/edk2.go lines 181-204): check
the store header at `start` and produce the region bounds
`(start + 28, start + size)`. -/
def parseVarstore (data : List Nat) (start : Nat) :
    Except VErr (Nat × Nat) :=
  let guid := parseBinGUID data start
  let size := rd data (start + 16) 4
  let storefmt := data.getD (start + 20) 0
  let state := data.getD (start + 21) 0
  if guid ≠ authVarsGuidBytes then .error .storeGuid
  else if storefmt ≠ 0x5a then .error .storeFmt
  else if state ≠ 0xfe then .error .storeState
  else .ok (start + 16 + 12, start + size)

/-- `Edk2VarStore.parseVolume` (src/varstore/edk2.go lines 111-179): locate
the NvData volume, reject offsets `< 1` with the not-found error, validate the
`_FVH` signature and GUID, then parse the store header at `offset + hlen`.
`none` propagates an abnormal scan.  The header reads always succeed because
the scan only returns offsets with `offset + 64 < len(data)`. -/
def parseVolume (data : List Nat) : Option (Except VErr (Nat × Nat)) :=
  (findNvData data).map fun off =>
    if off < 1 then .error .notFound
    else
      let o := off.toNat
      let sig := rd data (o + 40) 4
      let hlen := rd data (o + 48) 2
      if sig ≠ 0x4856465f then .error .badSig
      else if parseBinGUID data (o + 16) ≠ nvDataGuidBytes then .error .notVolume
      else parseVarstore data (o + hlen)

/-! ### PXE boot-option synthesizer (src/manager/simple_manager.go) -/

/-- `hexTable = "0123456789ABCDEF"` as bytes. -/
def hexTableBytes : List Nat := strBytes "0123456789ABCDEF"

/-- ASCII-uppercase a byte string; models `strings.ToUpper` on the ASCII
strings that occur here. -/
def toUpperAscii (s : List Nat) : List Nat :=
  s.map fun b => if 97 ≤ b ∧ b ≤ 122 then b - 32 else b

/-- `net.HardwareAddr.String` (Go standard library): lowercase hex pairs
joined by colons, empty for an empty address. -/
def goMacString : List Nat → List Nat
  | [] => []
  | [b] => [hexTableBytes.getD (b / 16) 0 + 32 * ite (b / 16 ≥ 10) 1 0,
            hexTableBytes.getD (b % 16) 0 + 32 * ite (b % 16 ≥ 10) 1 0]
  | b :: t =>
      [hexTableBytes.getD (b / 16) 0 + 32 * ite (b / 16 ≥ 10) 1 0,
       hexTableBytes.getD (b % 16) 0 + 32 * ite (b % 16 ≥ 10) 1 0, 58] ++
      goMacString t

/-- The byte-building loop of `formatMACTitle`: hex pairs from `hexTable`,
with a colon before every byte but the first. -/
def macHexLoop : List Nat → Bool → List Nat
  | [], _ => []
  | b :: t, first =>
      (if first then [] else [58]) ++
      [hexTableBytes.getD (b / 16) 0, hexTableBytes.getD (b % 16) 0] ++
      macHexLoop t false

/-- `formatMACTitle` (src/manager/simple_manager.go lines 169-198), as the
byte sequence of the produced Go string. -/
def formatMACTitle (macAddr : List Nat) : List Nat :=
  if macAddr.length ≠ 6 then
    strBytes "UEFI PXEv4 (MAC:" ++ toUpperAscii (goMacString macAddr) ++
      strBytes ")"
  else
    strBytes "UEFI PXEv4 (MAC:" ++ macHexLoop macAddr true ++ strBytes ")"

/-- `pxeOptData = mustDecodeHex("4eac0881119f594d850ee21a522c59b2")`. -/
def pxeOptData : List Nat :=
  [0x4e, 0xac, 0x08, 0x81, 0x11, 0x9f, 0x59, 0x4d,
   0x85, 0x0e, 0xe2, 0x1a, 0x52, 0x2c, 0x59, 0xb2]

/-- Modelled from the spec: device-path nodes (§4.2, §3) built by
`(&efi.DevicePath{}).Mac(macAddr).IPv4()` (the device-path codec is absent
from src).  MAC node: type 3, subtype 11, 6-byte MAC plus interface type,
zero-padded to 32 payload bytes; IPv4 node: type 3, subtype 12, all-zero
payload; End-Of-Path node 127/255 of length 4. -/
def pxeDevicePath (mac : List Nat) : List Nat :=
  ([3, 11] ++ le 2 36 ++ mac ++ List.replicate (32 - mac.length) 0) ++
  ([3, 12] ++ le 2 27 ++ List.replicate 23 0) ++
  ([127, 255] ++ le 2 4)

/-- Modelled from the spec: `EFI_LOAD_OPTION` encoding (§4.4), the
`BootEntry.Bytes()` absent from src: attributes, device-path length, UCS-2
title, device path, optional data. -/
def bytesLoadOption (attr : Nat) (titleUnits devPath optData : List Nat) :
    List Nat :=
  le 4 attr ++ le 2 devPath.length ++ ucs16Bytes titleUnits ++ devPath ++
    optData

/-- The variable mutation performed by
`SimpleFirmwareManager.GetFirmwareReader` (src/manager/simple_manager.go
lines 66-105) on the request's cloned variable list: insert `Boot0099` with
the PXE load option, then `BootNext` pointing at it.  Titles are ASCII, so
`NewUCS16String(title)` has the title's bytes as its code units. -/
def pxeVars (base : EfiVarList) (macAddr : List Nat) : EfiVarList :=
  let boot99 : EfiVar :=
    { Name := strBytes "Boot0099"
      Guid := globalVariableGuidBytes
      Attr := 7
      Data := bytesLoadOption 1 (formatMACTitle macAddr)
                (pxeDevicePath macAddr) pxeOptData
      Count := 0
      Time := none
      PkIdx := 0 }
  let bootNext : EfiVar :=
    { Name := strBytes "BootNext"
      Guid := globalVariableGuidBytes
      Attr := 7
      Data := [0x99, 0x00]
      Count := 0
      Time := none
      PkIdx := 0 }
  insertVar (insertVar base (strBytes "Boot0099") boot99)
    (strBytes "BootNext") bootNext

/-! ### EfiVar typed setters and the time-update rule
(src/efi/efivarlist.go) -/

/-- Chronological strict order on the modelled time fields; `time.Time.Before`
on normalised in-range field values. -/
def timeLt (a b : EfiTime) : Prop :=
  a.year < b.year ∨ (a.year = b.year ∧
    (a.month < b.month ∨ (a.month = b.month ∧
      (a.day < b.day ∨ (a.day = b.day ∧
        (a.hour < b.hour ∨ (a.hour = b.hour ∧
          (a.minute < b.minute ∨ (a.minute = b.minute ∧
            (a.second < b.second ∨ (a.second = b.second ∧
              a.ns < b.ns)))))))))))

instance : DecidableRel timeLt := fun a b => by
  unfold timeLt; infer_instance

/-- `EfiVar.updateTime` (src/efi/efivarlist.go lines 456-470), with the
wall clock `time.Now().UTC()` passed explicitly as `now` (every caller in the
source passes `nil` for `ts`, so `ts` is always `now`). -/
def updateTime (v : EfiVar) (now : EfiTime) : EfiVar :=
  if v.Attr &&& 0x20 = 0 then v
  else
    match v.Time with
    | none => { v with Time := some now }
    | some old => if timeLt old now then { v with Time := some now } else v

/-- `EfiVar.SetBool`. -/
def setBool (v : EfiVar) (value : Bool) (now : EfiTime) : EfiVar :=
  updateTime { v with Data := if value then [1] else [0] } now

/-- `EfiVar.SetString`; `value` is the Go string's bytes, a terminating NUL
is appended when absent. -/
def setString (v : EfiVar) (value : List Nat) (now : EfiTime) : EfiVar :=
  let buf := if value = [] ∨ value.getLast? ≠ some 0 then value ++ [0] else value
  updateTime { v with Data := buf } now

/-- `EfiVar.SetUint32`. -/
def setUint32 (v : EfiVar) (value : Nat) (now : EfiTime) : EfiVar :=
  updateTime { v with Data := le 4 value } now

/-- `EfiVar.SetBootEntry`, success path: the encoded load-option bytes become
the data (device-path parsing happens before any mutation; its failure path
leaves the variable untouched). -/
def setBootEntryData (v : EfiVar) (entryBytes : List Nat) (now : EfiTime) :
    EfiVar :=
  updateTime { v with Data := entryBytes } now

/-- `EfiVar.SetBootNext`. -/
def setBootNext (v : EfiVar) (index : Nat) (now : EfiTime) : EfiVar :=
  updateTime { v with Data := le 2 index } now

/-- `EfiVar.SetBootOrder`. -/
def setBootOrder (v : EfiVar) (order : List Nat) (now : EfiTime) : EfiVar :=
  updateTime { v with Data := (order.map (le 2)).flatten } now

/-- `EfiVar.AppendBootOrder`. -/
def appendBootOrder (v : EfiVar) (index : Nat) (now : EfiTime) : EfiVar :=
  updateTime { v with Data := v.Data ++ le 2 index } now

/-- `EfiVar.SetFromFile`, with the file contents passed as bytes. -/
def setFromFile (v : EfiVar) (contents : List Nat) (now : EfiTime) : EfiVar :=
  updateTime { v with Data := contents } now

/-- `EfiVar.GetBootOrder` (src/efi/efivarlist.go lines 559-566): decode
`len(Data)/2` little-endian 16-bit values.  The Go function's error result is
always `nil`. -/
def getBootOrderVar (v : EfiVar) : List Nat :=
  (List.range (v.Data.length / 2)).map fun pos => rd v.Data (pos * 2) 2

/-- Spec-side two-at-a-time decoding of a u16 little-endian sequence, used to
state what the boot_order view returns. -/
def decodeU16Pairs : List Nat → List Nat
  | a :: b :: t => (a + 256 * b) :: decodeU16Pairs t
  | _ => []

/-! ### Well-formedness -/

/-- A variable record whose fields fit the wire layout's integer types and
whose name's code units are nonzero (so the UCS-2 terminator is unambiguous). -/
def WfVar (v : EfiVar) : Prop :=
  v.Guid.length = 16 ∧ (∀ b ∈ v.Guid, b < 256) ∧
  (∀ u ∈ v.Name, 0 < u ∧ u < 65536) ∧
  v.Attr < 2 ^ 32 ∧ v.Count < 2 ^ 64 ∧ v.PkIdx < 2 ^ 32 ∧
  (∀ b ∈ v.Data, b < 256)

/-! ### Reading fields back out of a serialized record -/

theorem rd_pref (data pre c : List Nat) (w val off : Nat)
    (hdata : data = pre ++ (le w val ++ c)) (hoff : off = pre.length)
    (hv : val < 2 ^ (8 * w)) : rd data off w = val := by
  subst hdata hoff
  exact rd_at_concat pre w val c hv

theorem getD_pref (data pre c : List Nat) (x off : Nat)
    (hdata : data = pre ++ (x :: c)) (hoff : off = pre.length) :
    data.getD off 0 = x := by
  subst hdata hoff
  exact getD_at_concat pre x c

theorem getD_range_slice :
    ∀ (n : Nat) (a g b : List Nat), g.length = n →
      (List.range n).map (fun i => (a ++ (g ++ b)).getD (a.length + i) 0) = g := by
  intro n
  induction n with
  | zero =>
      intro a g b hg
      simp [List.length_eq_zero.mp hg]
  | succ n ih =>
      intro a g b hg
      cases g with
      | nil => simp at hg
      | cons x g' =>
          rw [List.range_succ_eq_map, List.map_cons]
          simp only [List.cons.injEq]
          constructor
          · simpa using getD_at_concat a x (g' ++ b)
          · rw [List.map_map]
            have hx : ∀ i : Nat,
                (a ++ (x :: g' ++ b)).getD (a.length + Nat.succ i) 0 =
                ((a ++ [x]) ++ (g' ++ b)).getD ((a ++ [x]).length + i) 0 := by
              intro i
              have h1 : a ++ (x :: g' ++ b) = (a ++ [x]) ++ (g' ++ b) := by
                simp
              have h2 : a.length + Nat.succ i = (a ++ [x]).length + i := by
                simp; omega
              rw [h1, h2]
            calc (List.range n).map
                  ((fun i => (a ++ (x :: g' ++ b)).getD (a.length + i) 0) ∘ Nat.succ)
                = (List.range n).map
                    (fun i => ((a ++ [x]) ++ (g' ++ b)).getD ((a ++ [x]).length + i) 0) := by
                  apply List.map_congr_left
                  intro i _
                  exact hx i
              _ = g' := ih (a ++ [x]) g' b (by simpa using hg)

theorem guid_pref (data pre g c : List Nat) (off : Nat)
    (hdata : data = pre ++ (g ++ c)) (hoff : off = pre.length)
    (hg : g.length = 16) : parseBinGUID data off = g := by
  subst hdata hoff
  exact getD_range_slice 16 pre g c hg

theorem slice_pref (data pre d c : List Nat) (lo n : Nat)
    (hdata : data = pre ++ (d ++ c)) (hlo : lo = pre.length)
    (hn : n = d.length) : (data.drop lo).take n = d := by
  subst hdata hlo hn
  rw [List.drop_left, List.take_left]

theorem ucs16Bytes_cons (u : Nat) (us : List Nat) :
    ucs16Bytes (u :: us) = le 2 u ++ ucs16Bytes us := by
  simp [ucs16Bytes]

theorem fromUCS16_pref :
    ∀ (units : List Nat) (data pre c : List Nat) (off fuel : Nat),
      data = pre ++ (ucs16Bytes units ++ c) → off = pre.length →
      (∀ u ∈ units, 0 < u ∧ u < 65536) → fuel ≥ units.length + 1 →
      fromUCS16Aux data fuel off = units := by
  intro units
  induction units with
  | nil =>
      intro data pre c off fuel hdata hoff hu hfuel
      obtain ⟨f, rfl⟩ : ∃ f, fuel = f + 1 := ⟨fuel - 1, by omega⟩
      have hlen : off + 1 < data.length := by
        have h2 : data.length = pre.length + (2 + c.length) := by
          subst hdata; simp [ucs16Bytes]; omega
        subst hoff; omega
      have hz : rd data off 2 = 0 :=
        rd_pref data pre c 2 0 off (by simpa [ucs16Bytes] using hdata) hoff
          (by norm_num)
      simp [fromUCS16Aux, hlen, hz]
  | cons u us ih =>
      intro data pre c off fuel hdata hoff hu hfuel
      obtain ⟨f, rfl⟩ : ∃ f, fuel = f + 1 := ⟨fuel - 1, by omega⟩
      have hu0 : 0 < u ∧ u < 65536 := hu u (by simp)
      have hdata' : data = pre ++ (le 2 u ++ (ucs16Bytes us ++ c)) := by
        rw [hdata, ucs16Bytes_cons]
        simp
      have hlen : off + 1 < data.length := by
        subst hoff
        rw [hdata']
        simp [le_length, ucs16Bytes_length, nameSize]
        omega
      have hvu : rd data off 2 = u :=
        rd_pref data pre (ucs16Bytes us ++ c) 2 u off hdata' hoff
          (by norm_num; omega)
      have hrec : fromUCS16Aux data f (off + 2) = us := by
        apply ih data (pre ++ le 2 u) c (off + 2) f
        · rw [hdata']; simp
        · simp [le_length]; omega
        · intro x hx; exact hu x (by simp [hx])
        · simp at hfuel ⊢; omega
      simp only [fromUCS16Aux, hlen, if_true, hvu]
      have hne : ¬ (u = 0) := by omega
      simp [hne, hrec]

theorem bytesTime_none_split :
    bytesTime none = le 2 0 ++ List.replicate 14 0 := by decide

/-- Decoding the serializer's output recovers the record: the parser applied
at the start of `bytesVar v` (with arbitrary surrounding bytes) returns `v`,
for well-formed records carrying no timestamp. -/
theorem parseVar_encode (pre suf : List Nat) (v : EfiVar)
    (hwf : WfVar v) (htime : v.Time = none)
    (hbound : pre.length + rawLen v + suf.length < 2 ^ 32) :
    parseVar (pre ++ bytesVar v ++ suf) pre.length = v := by
  obtain ⟨hg, _, hnm, hattr, hcount, hpk, _⟩ := hwf
  have hnslt : nameSize v.Name < 2 ^ 32 := by unfold rawLen at hbound; omega
  have hdlt : v.Data.length < 2 ^ 32 := by unfold rawLen at hbound; omega
  have h0 : pre ++ bytesVar v ++ suf =
      pre ++ (le 2 0x55aa ++ (0x3f :: (0 :: (le 4 v.Attr ++ (le 8 v.Count ++
        (bytesTime v.Time ++ (le 4 v.PkIdx ++ (le 4 (nameSize v.Name) ++
        (le 4 v.Data.length ++ (v.Guid ++ (ucs16Bytes v.Name ++ (v.Data ++
        (List.replicate (pad4 (44 + v.Guid.length + nameSize v.Name +
          v.Data.length)) 0xff ++ suf))))))))))))) := by
    simp [bytesVar, List.append_assoc]
  have hDlen : (pre ++ bytesVar v ++ suf).length =
      pre.length + align4 (rawLen v) + suf.length := by
    simp [bytesVar_length v hg]
    omega
  have hnsize : rd (pre ++ bytesVar v ++ suf) (pre.length + 36) 4 =
      nameSize v.Name := by
    apply rd_pref _ (pre ++ le 2 0x55aa ++ [0x3f, 0] ++ le 4 v.Attr ++
        le 8 v.Count ++ bytesTime v.Time ++ le 4 v.PkIdx)
        (le 4 v.Data.length ++ (v.Guid ++ (ucs16Bytes v.Name ++ (v.Data ++
          (List.replicate (pad4 (44 + v.Guid.length + nameSize v.Name +
            v.Data.length)) 0xff ++ suf)))))
    · rw [h0]; simp [List.append_assoc]
    · simp [le_length, bytesTime_length]
    · exact hnslt
  have hdsize : rd (pre ++ bytesVar v ++ suf) (pre.length + 40) 4 =
      v.Data.length := by
    apply rd_pref _ (pre ++ le 2 0x55aa ++ [0x3f, 0] ++ le 4 v.Attr ++
        le 8 v.Count ++ bytesTime v.Time ++ le 4 v.PkIdx ++
        le 4 (nameSize v.Name))
        (v.Guid ++ (ucs16Bytes v.Name ++ (v.Data ++
          (List.replicate (pad4 (44 + v.Guid.length + nameSize v.Name +
            v.Data.length)) 0xff ++ suf))))
    · rw [h0]; simp [List.append_assoc]
    · simp [le_length, bytesTime_length]
    · exact hdlt
  have hattr' : rd (pre ++ bytesVar v ++ suf) (pre.length + 4) 4 = v.Attr := by
    apply rd_pref _ (pre ++ le 2 0x55aa ++ [0x3f, 0])
        (le 8 v.Count ++ (bytesTime v.Time ++ (le 4 v.PkIdx ++
          (le 4 (nameSize v.Name) ++ (le 4 v.Data.length ++ (v.Guid ++
          (ucs16Bytes v.Name ++ (v.Data ++
          (List.replicate (pad4 (44 + v.Guid.length + nameSize v.Name +
            v.Data.length)) 0xff ++ suf)))))))))
    · rw [h0]; simp [List.append_assoc]
    · simp [le_length]
    · exact hattr
  have hcount' : rd (pre ++ bytesVar v ++ suf) (pre.length + 8) 8 =
      v.Count := by
    apply rd_pref _ (pre ++ le 2 0x55aa ++ [0x3f, 0] ++ le 4 v.Attr)
        (bytesTime v.Time ++ (le 4 v.PkIdx ++ (le 4 (nameSize v.Name) ++
          (le 4 v.Data.length ++ (v.Guid ++ (ucs16Bytes v.Name ++ (v.Data ++
          (List.replicate (pad4 (44 + v.Guid.length + nameSize v.Name +
            v.Data.length)) 0xff ++ suf))))))))
    · rw [h0]; simp [List.append_assoc]
    · simp [le_length]
    · exact hcount
  have hpk' : rd (pre ++ bytesVar v ++ suf) (pre.length + 32) 4 = v.PkIdx := by
    apply rd_pref _ (pre ++ le 2 0x55aa ++ [0x3f, 0] ++ le 4 v.Attr ++
        le 8 v.Count ++ bytesTime v.Time)
        (le 4 (nameSize v.Name) ++ (le 4 v.Data.length ++ (v.Guid ++
          (ucs16Bytes v.Name ++ (v.Data ++
          (List.replicate (pad4 (44 + v.Guid.length + nameSize v.Name +
            v.Data.length)) 0xff ++ suf))))))
    · rw [h0]; simp [List.append_assoc]
    · simp [le_length, bytesTime_length]
    · exact hpk
  have hguid : parseBinGUID (pre ++ bytesVar v ++ suf) (pre.length + 44) =
      v.Guid := by
    apply guid_pref _ (pre ++ le 2 0x55aa ++ [0x3f, 0] ++ le 4 v.Attr ++
        le 8 v.Count ++ bytesTime v.Time ++ le 4 v.PkIdx ++
        le 4 (nameSize v.Name) ++ le 4 v.Data.length)
        v.Guid
        (ucs16Bytes v.Name ++ (v.Data ++
          (List.replicate (pad4 (44 + v.Guid.length + nameSize v.Name +
            v.Data.length)) 0xff ++ suf)))
    · rw [h0]; simp [List.append_assoc]
    · simp [le_length, bytesTime_length]
    · exact hg
  have hname : fromUCS16 (pre ++ bytesVar v ++ suf) (pre.length + 44 + 16) =
      v.Name := by
    unfold fromUCS16
    apply fromUCS16_pref v.Name _ (pre ++ le 2 0x55aa ++ [0x3f, 0] ++
        le 4 v.Attr ++ le 8 v.Count ++ bytesTime v.Time ++ le 4 v.PkIdx ++
        le 4 (nameSize v.Name) ++ le 4 v.Data.length ++ v.Guid)
        (v.Data ++ (List.replicate (pad4 (44 + v.Guid.length +
          nameSize v.Name + v.Data.length)) 0xff ++ suf))
    · rw [h0]; simp [List.append_assoc]
    · simp [le_length, bytesTime_length, hg]
    · exact hnm
    · rw [hDlen]
      have h1 : v.Name.length + 1 ≤ rawLen v := by
        unfold rawLen nameSize; omega
      have h2 : rawLen v ≤ align4 (rawLen v) := align4_ge _
      omega
  have htime' : parseTime (pre ++ bytesVar v ++ suf) (pre.length + 16) =
      none := by
    unfold parseTime
    split
    · rfl
    · have hz : rd (pre ++ bytesVar v ++ suf) (pre.length + 16) 2 = 0 := by
        apply rd_pref _ (pre ++ le 2 0x55aa ++ [0x3f, 0] ++ le 4 v.Attr ++
            le 8 v.Count)
            (List.replicate 14 0 ++ (le 4 v.PkIdx ++ (le 4 (nameSize v.Name) ++
              (le 4 v.Data.length ++ (v.Guid ++ (ucs16Bytes v.Name ++
              (v.Data ++ (List.replicate (pad4 (44 + v.Guid.length +
                nameSize v.Name + v.Data.length)) 0xff ++ suf))))))))
        · rw [h0, htime, bytesTime_none_split]; simp [List.append_assoc]
        · simp [le_length]
        · norm_num
      simp only [List.append_assoc] at hz
      simp [hz]
  have hdata : ((pre ++ bytesVar v ++ suf).drop
        (pre.length + 44 + 16 + nameSize v.Name)).take v.Data.length =
      v.Data := by
    apply slice_pref _ (pre ++ le 2 0x55aa ++ [0x3f, 0] ++ le 4 v.Attr ++
        le 8 v.Count ++ bytesTime v.Time ++ le 4 v.PkIdx ++
        le 4 (nameSize v.Name) ++ le 4 v.Data.length ++ v.Guid ++
        ucs16Bytes v.Name)
        v.Data
        (List.replicate (pad4 (44 + v.Guid.length + nameSize v.Name +
          v.Data.length)) 0xff ++ suf)
    · rw [h0]; simp [List.append_assoc]
    · simp [le_length, bytesTime_length, hg, ucs16Bytes_length]
      unfold nameSize
      omega
    · rfl
  have hmod1 : (pre.length + 44 + 16 + nameSize v.Name) % 2 ^ 32 =
      pre.length + 44 + 16 + nameSize v.Name := by
    apply Nat.mod_eq_of_lt
    unfold rawLen at hbound; omega
  have hmod2 : (pre.length + 44 + 16 + nameSize v.Name + v.Data.length) %
      2 ^ 32 = pre.length + 44 + 16 + nameSize v.Name + v.Data.length := by
    apply Nat.mod_eq_of_lt
    unfold rawLen at hbound; omega
  show parseVar (pre ++ bytesVar v ++ suf) pre.length = v
  unfold parseVar
  simp only [hnsize, hdsize, hmod1, hmod2]
  have hsub : pre.length + 44 + 16 + nameSize v.Name + v.Data.length -
      (pre.length + 44 + 16 + nameSize v.Name) = v.Data.length := by omega
  rw [hsub]
  cases v with
  | mk Name Guid Attr Data Count Time PkIdx =>
      simp only [EfiVar.mk.injEq]
      exact ⟨hname, hguid, hattr', hdata, hcount', htime'.trans htime.symm, hpk'⟩

/-! ### Parsing an encoded record list -/

/-- The concatenation of the encodings of the records of `vl`, in list
order. -/
def encodeList (vl : EfiVarList) : List Nat :=
  vl.flatMap fun p => bytesVar p.2

theorem encodeList_cons (p : List Nat × EfiVar) (vl : EfiVarList) :
    encodeList (p :: vl) = bytesVar p.2 ++ encodeList vl := by
  simp [encodeList]

/-- A record list in the parser's canonical form: every entry keyed by its
record's name, well-formed, carrying no timestamp, and keys strictly
ascending in `lexLt` order. -/
def CanonList (vl : EfiVarList) : Prop :=
  (∀ p ∈ vl, p.1 = p.2.Name ∧ WfVar p.2 ∧ p.2.Time = none) ∧
  List.Pairwise (fun p q => lexLt p.1 q.1 = true) vl

theorem lexLt_irrefl (k : List Nat) : lexLt k k = false := by
  induction k with
  | nil => rfl
  | cons a t ih => simp [lexLt, ih]

theorem insertVar_of_lookup_none (acc : EfiVarList) (k : List Nat)
    (v : EfiVar) (h : lookupVar acc k = none) :
    insertVar acc k v = acc ++ [(k, v)] := by
  induction acc with
  | nil => rfl
  | cons p t ih =>
      unfold lookupVar at h
      unfold insertVar
      by_cases hp : p.1 = k
      · simp [hp] at h
      · simp only [hp, if_false] at h ⊢
        rw [ih h]
        simp

theorem lookupVar_snoc_none (acc : EfiVarList) (p : List Nat × EfiVar)
    (k : List Nat) (h1 : lookupVar acc k = none) (h2 : p.1 ≠ k) :
    lookupVar (acc ++ [p]) k = none := by
  induction acc with
  | nil => simp [lookupVar, h2]
  | cons q t ih =>
      rw [List.cons_append]
      unfold lookupVar at h1 ⊢
      by_cases hq : q.1 = k
      · simp [hq] at h1
      · simp only [hq, if_false] at h1 ⊢
        exact ih h1

theorem getD_ff_mid (pre mid : List Nat) (k i : Nat) (hi : i < k) :
    (pre ++ (List.replicate k 0xff ++ mid)).getD (pre.length + i) 0 = 0xff := by
  rw [List.getD_append_right pre (List.replicate k 0xff ++ mid) 0
    (pre.length + i) (by omega)]
  have h : pre.length + i - pre.length = i := by omega
  rw [h, List.getD_append (List.replicate k 0xff) mid 0 i
    (by simpa using hi)]
  simp [List.getD_eq_getD_get?, List.get?_eq_getElem?, List.getElem?_replicate,
    hi]

theorem bytesVar_magic (pre suf : List Nat) (v : EfiVar) :
    rd (pre ++ bytesVar v ++ suf) pre.length 2 = 0x55aa := by
  apply rd_pref _ pre ([0x3f, 0] ++ le 4 v.Attr ++ le 8 v.Count ++
      bytesTime v.Time ++ le 4 v.PkIdx ++ le 4 (nameSize v.Name) ++
      le 4 v.Data.length ++ v.Guid ++ ucs16Bytes v.Name ++ v.Data ++
      List.replicate (pad4 (44 + v.Guid.length + nameSize v.Name +
        v.Data.length)) 0xff ++ suf)
  · simp [bytesVar, List.append_assoc]
  · rfl
  · norm_num

theorem bytesVar_state (pre suf : List Nat) (v : EfiVar) :
    (pre ++ bytesVar v ++ suf).getD (pre.length + 2) 0 = 0x3f := by
  apply getD_pref _ (pre ++ le 2 0x55aa)
      (0 :: (le 4 v.Attr ++ le 8 v.Count ++ bytesTime v.Time ++
        le 4 v.PkIdx ++ le 4 (nameSize v.Name) ++ le 4 v.Data.length ++
        v.Guid ++ ucs16Bytes v.Name ++ v.Data ++
        List.replicate (pad4 (44 + v.Guid.length + nameSize v.Name +
          v.Data.length)) 0xff ++ suf))
  · simp [bytesVar, List.append_assoc]
  · simp [le_length]

theorem bytesVar_nsize (pre suf : List Nat) (v : EfiVar)
    (hns : nameSize v.Name < 2 ^ 32) :
    rd (pre ++ bytesVar v ++ suf) (pre.length + 36) 4 = nameSize v.Name := by
  apply rd_pref _ (pre ++ le 2 0x55aa ++ [0x3f, 0] ++ le 4 v.Attr ++
      le 8 v.Count ++ bytesTime v.Time ++ le 4 v.PkIdx)
      (le 4 v.Data.length ++ (v.Guid ++ (ucs16Bytes v.Name ++ (v.Data ++
        (List.replicate (pad4 (44 + v.Guid.length + nameSize v.Name +
          v.Data.length)) 0xff ++ suf)))))
  · simp [bytesVar, List.append_assoc]
  · simp [le_length, bytesTime_length]
  · exact hns

theorem bytesVar_dsize (pre suf : List Nat) (v : EfiVar)
    (hds : v.Data.length < 2 ^ 32) :
    rd (pre ++ bytesVar v ++ suf) (pre.length + 40) 4 = v.Data.length := by
  apply rd_pref _ (pre ++ le 2 0x55aa ++ [0x3f, 0] ++ le 4 v.Attr ++
      le 8 v.Count ++ bytesTime v.Time ++ le 4 v.PkIdx ++
      le 4 (nameSize v.Name))
      (v.Guid ++ (ucs16Bytes v.Name ++ (v.Data ++
        (List.replicate (pad4 (44 + v.Guid.length + nameSize v.Name +
          v.Data.length)) 0xff ++ suf))))
  · simp [bytesVar, List.append_assoc]
  · simp [le_length, bytesTime_length]
  · exact hds

/-- The record walk over a canonically encoded region: starting at
`pre.length`, parsing `encodeList vl` followed by `0xFF` fill recovers
exactly the records of `vl`, appended to the accumulator in order. -/
theorem getVarListAux_encode :
    ∀ (vl acc : EfiVarList) (data pre mid : List Nat) (k endPos fuel : Nat),
      data = pre ++ encodeList vl ++ (List.replicate k 0xff ++ mid) →
      endPos = pre.length + (encodeList vl).length + k →
      (∀ p ∈ vl, p.1 = p.2.Name ∧ WfVar p.2 ∧ p.2.Time = none) →
      List.Pairwise (fun p q => p.1 ≠ q.1) vl →
      (∀ p ∈ vl, lookupVar acc p.1 = none) →
      4 ∣ pre.length → 4 ∣ k → fuel ≥ vl.length + 1 →
      data.length < 2 ^ 32 →
      getVarListAux data endPos fuel pre.length acc = acc ++ vl := by
  intro vl
  induction vl with
  | nil =>
      intro acc data pre mid k endPos fuel hdata hend hcanon hpair hacc
        h4pre h4k hfuel hblen
      obtain ⟨f, rfl⟩ : ∃ f, fuel = f + 1 := ⟨fuel - 1, by omega⟩
      have hdata' : data = pre ++ (List.replicate k 0xff ++ mid) := by
        simpa [encodeList] using hdata
      have hend' : endPos = pre.length + k := by
        simpa [encodeList] using hend
      by_cases hk : k = 0
      · subst hk
        have hlt : ¬ pre.length < endPos := by omega
        simp [getVarListAux, hlt]
      · have hk4 : 4 ≤ k := by omega
        have hlt : pre.length < endPos := by omega
        have hb0 : data.getD pre.length 0 = 0xff := by
          rw [hdata']
          simpa using getD_ff_mid pre mid k 0 (by omega)
        have hb1 : data.getD (pre.length + 1) 0 = 0xff := by
          rw [hdata']
          exact getD_ff_mid pre mid k 1 (by omega)
        have hmagic : rd data pre.length 2 = 0xffff := by
          have h1 : rd data pre.length 2 =
              data.getD pre.length 0 +
                256 * (data.getD (pre.length + 1) 0 + 256 * 0) := rfl
          rw [h1, hb0, hb1]
        simp [getVarListAux, hlt, hmagic]
  | cons p vl' ih =>
      intro acc data pre mid k endPos fuel hdata hend hcanon hpair hacc
        h4pre h4k hfuel hblen
      obtain ⟨f, rfl⟩ : ∃ f, fuel = f + 1 := ⟨fuel - 1, by omega⟩
      obtain ⟨hkey, hwf, htime⟩ := hcanon p (List.mem_cons_self p vl')
      have hg : p.2.Guid.length = 16 := hwf.1
      have hdata' :
          data = pre ++ bytesVar p.2 ++ (encodeList vl' ++
            (List.replicate k 0xff ++ mid)) := by
        rw [hdata, encodeList_cons]
        simp [List.append_assoc]
      have hblen' : data.length =
          pre.length + (bytesVar p.2).length +
            ((encodeList vl').length + (k + mid.length)) := by
        rw [hdata']
        simp
        omega
      have hbvlen : (bytesVar p.2).length = align4 (rawLen p.2) :=
        bytesVar_length p.2 hg
      have hraw_le : rawLen p.2 ≤ (bytesVar p.2).length := by
        rw [hbvlen]; exact align4_ge _
      have hraw_ge : 62 ≤ rawLen p.2 := by
        unfold rawLen nameSize; omega
      have hnslt : nameSize p.2.Name < 2 ^ 32 := by
        unfold rawLen at hraw_le; omega
      have hdslt : p.2.Data.length < 2 ^ 32 := by
        unfold rawLen at hraw_le; omega
      have hmagic := bytesVar_magic pre
        (encodeList vl' ++ (List.replicate k 0xff ++ mid)) p.2
      have hstate := bytesVar_state pre
        (encodeList vl' ++ (List.replicate k 0xff ++ mid)) p.2
      have hns := bytesVar_nsize pre
        (encodeList vl' ++ (List.replicate k 0xff ++ mid)) p.2 hnslt
      have hds := bytesVar_dsize pre
        (encodeList vl' ++ (List.replicate k 0xff ++ mid)) p.2 hdslt
      rw [← hdata'] at hmagic hstate hns hds
      have hparse : parseVar data pre.length = p.2 := by
        rw [hdata']
        apply parseVar_encode _ _ _ hwf htime
        have hb2 := hblen
        rw [hdata'] at hb2
        simp only [List.length_append] at hb2
        simp only [List.length_append]
        omega
      have hlt : pre.length < endPos := by
        rw [hend, encodeList_cons]
        simp only [List.length_append]
        omega
      have hpos' :
          align4 (pre.length + 44 + 16 + nameSize p.2.Name +
            p.2.Data.length) = (pre ++ bytesVar p.2).length := by
        have h1 : pre.length + 44 + 16 + nameSize p.2.Name +
            p.2.Data.length = pre.length + rawLen p.2 := by
          unfold rawLen; omega
        rw [h1, align4_add_left _ _ h4pre, ← hbvlen]
        simp
      have hinsert :
          insertVar acc p.2.Name p.2 = acc ++ [p] := by
        have h1 : lookupVar acc p.2.Name = none := by
          rw [← hkey]; exact hacc p (List.mem_cons_self p vl')
        rw [← hkey] at h1 ⊢
        rw [insertVar_of_lookup_none acc p.1 p.2 h1]
      have hstep :
          getVarListAux data endPos (f + 1) pre.length acc =
          getVarListAux data endPos f (pre ++ bytesVar p.2).length
            (acc ++ [p]) := by
        simp only [getVarListAux]
        rw [if_pos hlt]
        simp [hmagic, hstate, hns, hds, hparse, hpos', hinsert]
        have hstate2 : data[pre.length + 2]?.getD 0 = (0x3f : Nat) := by
          simpa [List.getD_eq_getD_get?, List.get?_eq_getElem?] using hstate
        simp [hstate2]
      rw [hstep]
      have hrec := ih (acc ++ [p]) data (pre ++ bytesVar p.2) mid k endPos f
        (by rw [hdata]; rw [encodeList_cons]; simp [List.append_assoc])
        (by rw [hend, encodeList_cons]; simp only [List.length_append]; omega)
        (fun q hq => (hcanon q (List.mem_cons_of_mem p hq)))
        ((List.pairwise_cons.mp hpair).2)
        (fun q hq => by
          apply lookupVar_snoc_none
          · exact hacc q (List.mem_cons_of_mem p hq)
          · exact (List.pairwise_cons.mp hpair).1 q hq)
        (by
          simp only [List.length_append, hbvlen]
          exact Dvd.dvd.add h4pre (align4_dvd _))
        h4k
        (by simp at hfuel ⊢; omega)
        hblen
      rw [hrec]
      simp

/-! ### The serializer on a canonical list -/

theorem lexLt_asymm :
    ∀ a b : List Nat, lexLt a b = true → lexLt b a = false := by
  intro a
  induction a with
  | nil =>
      intro b h
      cases b with
      | nil => rfl
      | cons x t => rfl
  | cons x t ih =>
      intro b h
      cases b with
      | nil => simp [lexLt] at h
      | cons y s =>
          unfold lexLt at h ⊢
          by_cases hxy : x < y
          · have hyx : ¬ y < x := by omega
            simp [hxy, hyx]
          · by_cases hyx : y < x
            · simp [hxy, hyx] at h
            · simp [hxy, hyx] at h ⊢
              exact ih s h

theorem insortKey_head (k : List Nat) (t : List (List Nat))
    (h : ∀ j ∈ t, lexLt k j = true) : insortKey k t = k :: t := by
  cases t with
  | nil => rfl
  | cons j s =>
      have hj := h j (by simp)
      have hle : lexLe k j = true := by
        unfold lexLe
        rw [lexLt_asymm k j hj]
        rfl
      simp [insortKey, hle]

theorem sortKeys_sorted (l : List (List Nat))
    (h : List.Pairwise (fun a b => lexLt a b = true) l) : sortKeys l = l := by
  induction l with
  | nil => rfl
  | cons k t ih =>
      obtain ⟨hk, ht⟩ := List.pairwise_cons.mp h
      unfold sortKeys
      rw [ih ht]
      exact insortKey_head k t hk

theorem lookupVar_head (p : List Nat × EfiVar) (t : EfiVarList) :
    lookupVar (p :: t) p.1 = some p.2 := by
  cases p; simp [lookupVar]

theorem lookupVar_of_ne (p : List Nat × EfiVar) (t : EfiVarList)
    (k : List Nat) (h : p.1 ≠ k) : lookupVar (p :: t) k = lookupVar t k := by
  cases p with
  | mk a b => simp only [lookupVar]; simp [fun hh => h hh]

theorem flatMap_lookup_self (vl : EfiVarList)
    (hnodup : (vl.map Prod.fst).Nodup) :
    ((vl.map Prod.fst).flatMap fun k =>
      match lookupVar vl k with
      | some v => bytesVar v
      | none => []) = encodeList vl := by
  induction vl with
  | nil => rfl
  | cons p t ih =>
      rw [List.map_cons, List.flatMap_cons, lookupVar_head, encodeList_cons]
      have hnd := List.nodup_cons.mp hnodup
      congr 1
      have hcong : ∀ k ∈ t.map Prod.fst,
          (match lookupVar (p :: t) k with
           | some v => bytesVar v
           | none => ([] : List Nat)) =
          (match lookupVar t k with
           | some v => bytesVar v
           | none => []) := by
        intro k hk
        have hne : p.1 ≠ k := fun hh => hnd.1 (hh ▸ hk)
        rw [lookupVar_of_ne p t k hne]
      calc ((t.map Prod.fst).flatMap fun k =>
              match lookupVar (p :: t) k with
              | some v => bytesVar v
              | none => [])
          = ((t.map Prod.fst).map fun k =>
              match lookupVar (p :: t) k with
              | some v => bytesVar v
              | none => []).flatten := by
            rw [List.flatMap_def]
        _ = ((t.map Prod.fst).map fun k =>
              match lookupVar t k with
              | some v => bytesVar v
              | none => []).flatten := by
            rw [List.map_congr_left hcong]
        _ = encodeList t := by
            rw [← List.flatMap_def]
            exact ih hnd.2

theorem pairwise_ne_of_lexLt (vl : EfiVarList)
    (hpair : List.Pairwise (fun p q => lexLt p.1 q.1 = true) vl) :
    List.Pairwise (fun p q : List Nat × EfiVar => p.1 ≠ q.1) vl := by
  apply List.Pairwise.imp ?_ hpair
  intro a b hab hrw
  rw [hrw, lexLt_irrefl] at hab
  exact Bool.false_ne_true hab

theorem keys_nodup_of_pairwise (vl : EfiVarList)
    (hpair : List.Pairwise (fun p q => lexLt p.1 q.1 = true) vl) :
    (vl.map Prod.fst).Nodup := by
  show List.Pairwise (fun a b => a ≠ b) (vl.map Prod.fst)
  rw [List.pairwise_map]
  apply List.Pairwise.imp ?_ hpair
  intro a b hab hrw
  rw [hrw, lexLt_irrefl] at hab
  exact Bool.false_ne_true hab

theorem bytesVarList_canon (start endPos : Nat) (vl : EfiVarList)
    (hpair : List.Pairwise (fun p q => lexLt p.1 q.1 = true) vl)
    (hfit : start + (encodeList vl).length ≤ endPos) :
    bytesVarList start endPos vl = some (encodeList vl) := by
  unfold bytesVarList
  dsimp only
  rw [sortKeys_sorted _ (by rw [List.pairwise_map]; exact hpair),
    flatMap_lookup_self vl (keys_nodup_of_pairwise vl hpair)]
  have hcond : ¬ (((encodeList vl).length : Int) >
      (endPos : Int) - (start : Int)) := by
    omega
  simp [hcond]

theorem encodeList_length_ge (vl : EfiVarList)
    (h : ∀ p ∈ vl, p.2.Guid.length = 16) :
    64 * vl.length ≤ (encodeList vl).length := by
  induction vl with
  | nil => simp [encodeList]
  | cons p t ih =>
      rw [encodeList_cons, List.length_append, List.length_cons]
      have hg := h p (List.mem_cons_self p t)
      have h64 : 64 ≤ (bytesVar p.2).length := by
        rw [bytesVar_length p.2 hg]
        have h1 : 62 ≤ rawLen p.2 := by unfold rawLen nameSize; omega
        have h2 := align4_ge (rawLen p.2)
        have h3 := align4_dvd (rawLen p.2)
        omega
      have ht := ih fun q hq => h q (List.mem_cons_of_mem p hq)
      omega

/-- Parsing a serialized region (records with distinct keys) recovers the
record list. -/
theorem getVarList_encode (data pre mid : List Nat) (vl : EfiVarList)
    (k start endPos : Nat)
    (hdata : data = pre ++ encodeList vl ++ (List.replicate k 0xff ++ mid))
    (hstart : start = pre.length)
    (hend : endPos = start + (encodeList vl).length + k)
    (hvars : ∀ p ∈ vl, p.1 = p.2.Name ∧ WfVar p.2 ∧ p.2.Time = none)
    (hdist : List.Pairwise (fun p q => p.1 ≠ q.1) vl)
    (h4s : 4 ∣ start) (h4k : 4 ∣ k)
    (hblen : data.length < 2 ^ 32) :
    getVarList data start endPos = vl := by
  have hg : ∀ p ∈ vl, p.2.Guid.length = 16 := fun p hp => (hvars p hp).2.1.1
  have hfuel : endPos - start + 1 ≥ vl.length + 1 := by
    have h1 := encodeList_length_ge vl hg
    omega
  subst hstart
  have h := getVarListAux_encode vl [] data pre mid k endPos
    (endPos - pre.length + 1) hdata hend hvars hdist
    (fun p _ => rfl) h4s h4k hfuel hblen
  simpa [getVarList] using h

/-- Parsing a canonically serialized region recovers the record list. -/
theorem getVarList_canon (data pre mid : List Nat) (vl : EfiVarList)
    (k start endPos : Nat)
    (hdata : data = pre ++ encodeList vl ++ (List.replicate k 0xff ++ mid))
    (hstart : start = pre.length)
    (hend : endPos = start + (encodeList vl).length + k)
    (hcanon : CanonList vl)
    (h4s : 4 ∣ start) (h4k : 4 ∣ k)
    (hblen : data.length < 2 ^ 32) :
    getVarList data start endPos = vl := by
  obtain ⟨hvars, hpair⟩ := hcanon
  exact getVarList_encode data pre mid vl k start endPos hdata hstart hend
    hvars (pairwise_ne_of_lexLt vl hpair) h4s h4k hblen

/-- Re-serializing a canonical list rebuilds the image byte-for-byte. -/
theorem bytesVarStore_canon (data pre mid : List Nat) (vl : EfiVarList)
    (k start endPos : Nat)
    (hdata : data = pre ++ encodeList vl ++ (List.replicate k 0xff ++ mid))
    (hstart : start = pre.length)
    (hend : endPos = start + (encodeList vl).length + k)
    (hpair : List.Pairwise (fun p q => lexLt p.1 q.1 = true) vl) :
    bytesVarStore data start endPos vl = some data := by
  unfold bytesVarStore
  rw [bytesVarList_canon start endPos vl hpair (by omega)]
  have htake : data.take start = pre := by
    rw [hdata, hstart]
    have h1 : pre ++ encodeList vl ++ (List.replicate k 0xff ++ mid) =
        pre ++ (encodeList vl ++ (List.replicate k 0xff ++ mid)) := by
      simp [List.append_assoc]
    rw [h1, List.take_left]
  have hdrop : data.drop endPos = mid := by
    have h1 : data = (pre ++ encodeList vl ++ List.replicate k 0xff) ++
        mid := by
      rw [hdata]; simp [List.append_assoc]
    have h2 : (pre ++ encodeList vl ++ List.replicate k 0xff).length =
        endPos := by
      simp only [List.length_append, List.length_replicate]
      omega
    rw [h1, ← h2, List.drop_left]
  have hk : endPos - (start + (encodeList vl).length) = k := by omega
  rw [Option.map_some']
  rw [htake, hdrop, hk, hdata]
  simp [List.append_assoc]

/-! ### Concrete images for the counterexamples -/

theorem parseBinGUID_zeros (n off : Nat) (rest : List Nat)
    (h : off + 16 ≤ n) :
    parseBinGUID (List.replicate n 0 ++ rest) off = List.replicate 16 0 := by
  unfold parseBinGUID
  apply List.eq_replicate_of_mem
  intro b hb
  rw [List.mem_map] at hb
  obtain ⟨i, hi, rfl⟩ := hb
  rw [List.mem_range] at hi
  rw [List.getD_append _ _ _ _ (by simp; omega)]
  have hlt : off + i < n := by omega
  simp [List.getD_eq_getD_get?, List.get?_eq_getElem?, List.getElem?_replicate,
    hlt]

theorem findNvDataAux_step_skip (data : List Nat) (fuel : Nat) (offset : Int)
    (hguard : offset + 64 < (data.length : Int)) (hoff : ¬ offset < 0)
    (hnv : parseBinGUID data (offset.toNat + 16) ≠ nvDataGuidBytes)
    (hffs : parseBinGUID data (offset.toNat + 16) ≠ ffsGuidBytes) :
    findNvDataAux data (fuel + 1) offset =
      findNvDataAux data fuel (offset + 1024) := by
  conv_lhs => rw [findNvDataAux]
  simp [hguard, hoff, hnv, hffs]

theorem findNvDataAux_step_found (data : List Nat) (fuel : Nat) (offset : Int)
    (hguard : offset + 64 < (data.length : Int)) (hoff : ¬ offset < 0)
    (hnv : parseBinGUID data (offset.toNat + 16) = nvDataGuidBytes) :
    findNvDataAux data (fuel + 1) offset = some offset := by
  conv_lhs => rw [findNvDataAux]
  simp [hguard, hoff, hnv]

/-- A live record named "B" (UCS-2 unit 0x42) with empty data. -/
def cVarB : EfiVar :=
  { Name := [0x42], Guid := globalVariableGuidBytes, Attr := 7, Data := [],
    Count := 0, Time := none, PkIdx := 0 }

/-- A live record named "A" (UCS-2 unit 0x41) with empty data. -/
def cVarA : EfiVar :=
  { Name := [0x41], Guid := globalVariableGuidBytes, Attr := 7, Data := [],
    Count := 0, Time := none, PkIdx := 0 }

/-- The 1116-byte prefix of a minimal well-formed flash image: 1024 filler
bytes (the scan's first stride), a firmware-volume block at offset 1024 with
the NvData GUID at +16, `_FVH` signature, header length 64, and an AuthVars
store header of size 156 at offset 1088; the variable region is
`[1116, 1244)`. -/
def cHead : List Nat :=
  List.replicate 1040 0 ++ nvDataGuidBytes ++ le 8 0 ++ le 4 0x4856465f ++
  le 4 0 ++ le 2 64 ++ le 2 0 ++ le 2 0 ++ [0] ++ [0] ++ le 4 0 ++ le 4 0 ++
  authVarsGuidBytes ++ le 4 156 ++ [0x5a, 0xfe] ++ List.replicate 6 0

/-- A well-formed flash image whose two live records appear in the order
"B", "A" — valid on every byte, but not in the serializer's lexicographic
order. -/
def cImg : List Nat := cHead ++ bytesVar cVarB ++ bytesVar cVarA

set_option maxRecDepth 4000 in
theorem cHead_length : cHead.length = 1116 := by
  simp [cHead, le_length, nvDataGuidBytes, authVarsGuidBytes]

theorem cVarB_bytes_length : (bytesVar cVarB).length = 64 := by
  rw [bytesVar_length cVarB (by decide)]
  decide

theorem cVarA_bytes_length : (bytesVar cVarA).length = 64 := by
  rw [bytesVar_length cVarA (by decide)]
  decide

theorem cImg_length : cImg.length = 1244 := by
  simp [cImg, cHead_length, cVarB_bytes_length, cVarA_bytes_length]

set_option maxRecDepth 4000 in
theorem cImg_decomp :
    cImg = List.replicate 1040 0 ++ (nvDataGuidBytes ++ (le 8 0 ++
      (le 4 0x4856465f ++ (le 4 0 ++ (le 2 64 ++ (le 2 0 ++ (le 2 0 ++
      (0 :: (0 :: (le 4 0 ++ (le 4 0 ++ (authVarsGuidBytes ++ (le 4 156 ++
      (0x5a :: (0xfe :: (List.replicate 6 0 ++
      (bytesVar cVarB ++ bytesVar cVarA))))))))))))))))) := by
  simp only [cImg, cHead, List.append_assoc, List.cons_append,
    List.nil_append]

set_option maxRecDepth 4000 in
theorem cImg_guid_zero : parseBinGUID cImg 16 = List.replicate 16 0 := by
  have hdata : cImg = List.replicate 1040 0 ++
      (nvDataGuidBytes ++ le 8 0 ++ le 4 0x4856465f ++ le 4 0 ++ le 2 64 ++
       le 2 0 ++ le 2 0 ++ [0] ++ [0] ++ le 4 0 ++ le 4 0 ++
       authVarsGuidBytes ++ le 4 156 ++ [0x5a, 0xfe] ++ List.replicate 6 0 ++
       bytesVar cVarB ++ bytesVar cVarA) := by
    simp only [cImg, cHead, List.append_assoc, List.cons_append,
      List.nil_append]
  rw [hdata]
  exact parseBinGUID_zeros 1040 16 _ (by norm_num)

set_option maxRecDepth 4000 in
theorem cImg_guid_nv : parseBinGUID cImg 1040 = nvDataGuidBytes := by
  have hdata : cImg = List.replicate 1040 0 ++
      (nvDataGuidBytes ++
        (le 8 0 ++ le 4 0x4856465f ++ le 4 0 ++ le 2 64 ++ le 2 0 ++
         le 2 0 ++ [0] ++ [0] ++ le 4 0 ++ le 4 0 ++ authVarsGuidBytes ++
         le 4 156 ++ [0x5a, 0xfe] ++ List.replicate 6 0 ++ bytesVar cVarB ++
         bytesVar cVarA)) := by
    simp only [cImg, cHead, List.append_assoc, List.cons_append,
      List.nil_append]
  exact guid_pref cImg (List.replicate 1040 0) nvDataGuidBytes _ 1040 hdata
    (by simp) (by decide)

set_option maxRecDepth 4000 in
theorem cImg_sig : rd cImg 1064 4 = 0x4856465f := by
  have hdata : cImg = (List.replicate 1040 0 ++ nvDataGuidBytes ++ le 8 0) ++
      (le 4 0x4856465f ++
        (le 4 0 ++ le 2 64 ++ le 2 0 ++ le 2 0 ++ [0] ++ [0] ++ le 4 0 ++
         le 4 0 ++ authVarsGuidBytes ++ le 4 156 ++ [0x5a, 0xfe] ++
         List.replicate 6 0 ++ bytesVar cVarB ++ bytesVar cVarA)) := by
    simp only [cImg, cHead, List.append_assoc, List.cons_append,
      List.nil_append]
  exact rd_pref cImg _ _ 4 0x4856465f 1064 hdata
    (by simp [le_length, nvDataGuidBytes]) (by norm_num)

set_option maxRecDepth 4000 in
theorem cImg_hlen : rd cImg 1072 2 = 64 := by
  have hdata : cImg = (List.replicate 1040 0 ++ nvDataGuidBytes ++ le 8 0 ++
      le 4 0x4856465f ++ le 4 0) ++
      (le 2 64 ++
        (le 2 0 ++ le 2 0 ++ [0] ++ [0] ++ le 4 0 ++ le 4 0 ++
         authVarsGuidBytes ++ le 4 156 ++ [0x5a, 0xfe] ++
         List.replicate 6 0 ++ bytesVar cVarB ++ bytesVar cVarA)) := by
    simp only [cImg, cHead, List.append_assoc, List.cons_append,
      List.nil_append]
  exact rd_pref cImg _ _ 2 64 1072 hdata
    (by simp [le_length, nvDataGuidBytes]) (by norm_num)

set_option maxRecDepth 4000 in
theorem cImg_guid_auth : parseBinGUID cImg 1088 = authVarsGuidBytes := by
  have hdata : cImg = (List.replicate 1040 0 ++ nvDataGuidBytes ++ le 8 0 ++
      le 4 0x4856465f ++ le 4 0 ++ le 2 64 ++ le 2 0 ++ le 2 0 ++ [0] ++
      [0] ++ le 4 0 ++ le 4 0) ++
      (authVarsGuidBytes ++
        (le 4 156 ++ [0x5a, 0xfe] ++ List.replicate 6 0 ++ bytesVar cVarB ++
         bytesVar cVarA)) := by
    simp only [cImg, cHead, List.append_assoc, List.cons_append,
      List.nil_append]
  exact guid_pref cImg _ authVarsGuidBytes _ 1088 hdata
    (by simp [le_length, nvDataGuidBytes]) (by decide)

set_option maxRecDepth 4000 in
theorem cImg_size : rd cImg 1104 4 = 156 := by
  have hdata : cImg = (List.replicate 1040 0 ++ nvDataGuidBytes ++ le 8 0 ++
      le 4 0x4856465f ++ le 4 0 ++ le 2 64 ++ le 2 0 ++ le 2 0 ++ [0] ++
      [0] ++ le 4 0 ++ le 4 0 ++ authVarsGuidBytes) ++
      (le 4 156 ++
        ([0x5a, 0xfe] ++ List.replicate 6 0 ++ bytesVar cVarB ++
         bytesVar cVarA)) := by
    simp only [cImg, cHead, List.append_assoc, List.cons_append,
      List.nil_append]
  exact rd_pref cImg _ _ 4 156 1104 hdata
    (by simp [le_length, nvDataGuidBytes, authVarsGuidBytes]) (by norm_num)

set_option maxRecDepth 4000 in
theorem cImg_fmt : cImg.getD 1108 0 = 0x5a := by
  have hdata : cImg = (List.replicate 1040 0 ++ nvDataGuidBytes ++ le 8 0 ++
      le 4 0x4856465f ++ le 4 0 ++ le 2 64 ++ le 2 0 ++ le 2 0 ++ [0] ++
      [0] ++ le 4 0 ++ le 4 0 ++ authVarsGuidBytes ++ le 4 156) ++
      (0x5a :: ([0xfe] ++ List.replicate 6 0 ++ bytesVar cVarB ++
        bytesVar cVarA)) := by
    simp only [cImg, cHead, List.append_assoc, List.cons_append,
      List.nil_append]
  exact getD_pref cImg _ _ 0x5a 1108 hdata
    (by simp [le_length, nvDataGuidBytes, authVarsGuidBytes])

set_option maxRecDepth 4000 in
theorem cImg_state : cImg.getD 1109 0 = 0xfe := by
  have hdata : cImg = (List.replicate 1040 0 ++ nvDataGuidBytes ++ le 8 0 ++
      le 4 0x4856465f ++ le 4 0 ++ le 2 64 ++ le 2 0 ++ le 2 0 ++ [0] ++
      [0] ++ le 4 0 ++ le 4 0 ++ authVarsGuidBytes ++ le 4 156 ++ [0x5a]) ++
      (0xfe :: (List.replicate 6 0 ++ bytesVar cVarB ++ bytesVar cVarA)) := by
    simp only [cImg, cHead, List.append_assoc, List.cons_append,
      List.nil_append]
  exact getD_pref cImg _ _ 0xfe 1109 hdata
    (by simp [le_length, nvDataGuidBytes, authVarsGuidBytes])

theorem findNvData_cImg : findNvData cImg = some 1024 := by
  unfold findNvData
  rw [cImg_length]
  show findNvDataAux cImg (1244 + 1) 0 = some 1024
  rw [findNvDataAux_step_skip cImg 1244 0
    (by rw [cImg_length]; norm_num) (by norm_num)
    (by rw [show ((0 : Int).toNat + 16) = 16 from rfl, cImg_guid_zero]
        decide)
    (by rw [show ((0 : Int).toNat + 16) = 16 from rfl, cImg_guid_zero]
        decide)]
  norm_num
  show findNvDataAux cImg (1243 + 1) 1024 = some 1024
  rw [findNvDataAux_step_found cImg 1243 1024
    (by rw [cImg_length]; norm_num) (by norm_num)
    (by rw [show ((1024 : Int).toNat + 16) = 1040 from rfl, cImg_guid_nv])]

set_option maxRecDepth 8000 in
theorem parseVolume_cImg : parseVolume cImg = some (Except.ok (1116, 1244)) := by
  unfold parseVolume parseVarstore
  rw [findNvData_cImg, Option.map_some']
  rw [if_neg (by norm_num : ¬ (1024 : Int) < 1)]
  dsimp only
  rw [show (1024 : Int).toNat = 1024 from rfl]
  norm_num [cImg_sig, cImg_hlen, cImg_guid_nv, cImg_guid_auth, cImg_size,
    cImg_fmt, cImg_state]
  have hfmt2 : cImg[1108]?.getD 0 = 90 := by
    simpa [List.getD_eq_getD_get?, List.get?_eq_getElem?] using cImg_fmt
  have hstate2 : cImg[1109]?.getD 0 = 254 := by
    simpa [List.getD_eq_getD_get?, List.get?_eq_getElem?] using cImg_state
  simp [hfmt2, hstate2]

/-- The unsorted record list the parser extracts from `cImg`. -/
def cVarList : EfiVarList := [([0x42], cVarB), ([0x41], cVarA)]

theorem getVarList_cImg : getVarList cImg 1116 1244 = cVarList := by
  apply getVarList_encode cImg cHead [] cVarList 0 1116 1244
  · show cImg = cHead ++ encodeList cVarList ++ (List.replicate 0 0xff ++ [])
    simp only [cImg, cVarList, encodeList, List.flatMap_cons, List.flatMap_nil,
      List.replicate_zero, List.append_nil, List.append_assoc]
  · exact cHead_length.symm
  · show 1244 = 1116 + (encodeList cVarList).length + 0
    simp only [cVarList, encodeList, List.flatMap_cons, List.flatMap_nil,
      List.append_nil, List.length_append, cVarB_bytes_length,
      cVarA_bytes_length]
  · intro p hp
    simp only [cVarList, List.mem_cons, List.not_mem_nil, or_false] at hp
    rcases hp with rfl | rfl
    · exact ⟨rfl, by unfold WfVar; decide, rfl⟩
    · exact ⟨rfl, by unfold WfVar; decide, rfl⟩
  · decide
  · decide
  · decide
  · rw [cImg_length]; norm_num

set_option maxRecDepth 8000 in
theorem bytesVarStore_cImg_ne :
    bytesVarStore cImg 1116 1244 cVarList ≠ some cImg := by
  have hblob : bytesVarList 1116 1244 cVarList =
      some (bytesVar cVarA ++ bytesVar cVarB) := by
    unfold bytesVarList
    dsimp only
    have hkeys : sortKeys (cVarList.map Prod.fst) = [[0x41], [0x42]] := by
      decide
    rw [hkeys]
    have hflat : ([[0x41], [0x42]] : List (List Nat)).flatMap (fun k =>
        match lookupVar cVarList k with
        | some v => bytesVar v
        | none => []) = bytesVar cVarA ++ bytesVar cVarB := by
      show (match lookupVar cVarList [0x41] with
            | some v => bytesVar v
            | none => []) ++
           ((match lookupVar cVarList [0x42] with
            | some v => bytesVar v
            | none => []) ++ []) = bytesVar cVarA ++ bytesVar cVarB
      have h1 : lookupVar cVarList [0x41] = some cVarA := by decide
      have h2 : lookupVar cVarList [0x42] = some cVarB := by decide
      rw [h1, h2]
      simp
    rw [hflat]
    have hlen : (bytesVar cVarA ++ bytesVar cVarB).length = 128 := by
      simp [cVarA_bytes_length, cVarB_bytes_length]
    rw [if_neg (by rw [hlen]; norm_num)]
  intro hcontra
  unfold bytesVarStore at hcontra
  rw [hblob, Option.map_some'] at hcontra
  have hsome := Option.some.inj hcontra
  have htake : cImg.take 1116 = cHead := by
    show (cHead ++ bytesVar cVarB ++ bytesVar cVarA).take 1116 = cHead
    rw [← cHead_length]
    rw [List.append_assoc, List.take_left]
  have hdrop : cImg.drop 1244 = [] := by
    rw [← cImg_length, List.drop_length]
  rw [htake, hdrop] at hsome
  have hlen2 : (bytesVar cVarA ++ bytesVar cVarB).length = 128 := by
    simp [cVarA_bytes_length, cVarB_bytes_length]
  rw [hlen2] at hsome
  have hrep : (1244 - (1116 + 128)) = 0 := by norm_num
  rw [hrep] at hsome
  simp only [List.replicate_zero, List.append_nil, List.nil_append] at hsome
  have hsome2 : cHead ++ (bytesVar cVarA ++ bytesVar cVarB) =
      cHead ++ (bytesVar cVarB ++ bytesVar cVarA) := by
    rw [← List.append_assoc] at hsome ⊢
    rw [hsome]
    show cImg = cHead ++ bytesVar cVarB ++ bytesVar cVarA
    rfl
  have hcancel := List.append_cancel_left hsome2
  have : bytesVar cVarA ++ bytesVar cVarB ≠ bytesVar cVarB ++ bytesVar cVarA := by
    decide
  exact this hcancel

/-! ### Claim C1 -/

/-- C1, counterexample: `cImg` is a well-formed flash image — `parseVolume`
locates and validates the `_FVH`/NvData volume and AuthVars store, yielding
the variable region `[1116, 1244)`, whose two live records are laid out
exactly as the parser expects — yet serializing the parsed collection back
does not reproduce `cImg`: its records are stored in the order "B", "A" and
the serializer re-orders them lexicographically. -/
theorem c1_counterexample :
    parseVolume cImg = some (Except.ok (1116, 1244)) ∧
    bytesVarStore cImg 1116 1244 (getVarList cImg 1116 1244) ≠ some cImg := by
  refine ⟨parseVolume_cImg, ?_⟩
  rw [getVarList_cImg]
  exact bytesVarStore_cImg_ne

/-- C1 (amended): for every image whose variable region `[start, endPos)` is
the canonical serialization of a collection — records in strictly ascending
lexicographic name order, each well-formed with no timestamp, 0xFF fill after
the records, region bounds 4-byte aligned — parsing the region into a
variable collection and serializing it back yields the image byte-exactly,
padding included. -/
theorem c1_save_load_roundtrip (data pre mid : List Nat) (vl : EfiVarList)
    (k start endPos : Nat)
    (hdata : data = pre ++ encodeList vl ++ (List.replicate k 0xff ++ mid))
    (hstart : start = pre.length)
    (hend : endPos = start + (encodeList vl).length + k)
    (hcanon : CanonList vl)
    (h4s : 4 ∣ start) (h4k : 4 ∣ k)
    (hblen : data.length < 2 ^ 32) :
    bytesVarStore data start endPos (getVarList data start endPos) =
      some data := by
  rw [getVarList_canon data pre mid vl k start endPos hdata hstart hend
    hcanon h4s h4k hblen]
  exact bytesVarStore_canon data pre mid vl k start endPos hdata hstart hend
    hcanon.2

/-- C1, witness: the amended round-trip instantiated on a concrete canonical
image holding the records "A", "B" in lexicographic order. -/
theorem c1_witness :
    bytesVarStore (cHead ++ bytesVar cVarA ++ bytesVar cVarB) 1116 1244
      (getVarList (cHead ++ bytesVar cVarA ++ bytesVar cVarB) 1116 1244) =
    some (cHead ++ bytesVar cVarA ++ bytesVar cVarB) := by
  apply c1_save_load_roundtrip _ cHead []
    [([0x41], cVarA), ([0x42], cVarB)] 0 1116 1244
  · simp only [encodeList, List.flatMap_cons, List.flatMap_nil,
      List.replicate_zero, List.append_nil, List.append_assoc]
  · exact cHead_length.symm
  · simp only [encodeList, List.flatMap_cons, List.flatMap_nil,
      List.append_nil, List.length_append, cVarA_bytes_length,
      cVarB_bytes_length]
  · constructor
    · intro p hp
      simp only [List.mem_cons, List.not_mem_nil, or_false] at hp
      rcases hp with rfl | rfl
      · exact ⟨rfl, by unfold WfVar; decide, rfl⟩
      · exact ⟨rfl, by unfold WfVar; decide, rfl⟩
    · decide
  · decide
  · decide
  · show (cHead ++ bytesVar cVarA ++ bytesVar cVarB).length < 2 ^ 32
    simp only [List.length_append, cHead_length, cVarA_bytes_length,
      cVarB_bytes_length]
    norm_num

/-! ### Claim C7 -/

/-- A 65-byte buffer carrying the NvData GUID at offset 16, i.e. a scan match
at candidate offset 0. -/
def cImg7 : List Nat :=
  List.replicate 16 0 ++ nvDataGuidBytes ++ List.replicate 33 0

theorem findNvDataAux_sound (data : List Nat) :
    ∀ fuel : Nat, ∀ offset r : Int,
      findNvDataAux data fuel offset = some r →
      r = -1 ∨ (0 ≤ r ∧ parseBinGUID data (r.toNat + 16) = nvDataGuidBytes) := by
  intro fuel
  induction fuel with
  | zero => intro offset r h; simp [findNvDataAux] at h
  | succ fuel ih =>
      intro offset r h
      rw [findNvDataAux] at h
      by_cases hguard : offset + 64 < (data.length : Int)
      · rw [if_pos hguard] at h
        by_cases hneg : offset < 0
        · rw [if_pos hneg] at h; exact absurd h (by simp)
        · rw [if_neg hneg] at h
          by_cases hnv : parseBinGUID data (offset.toNat + 16) = nvDataGuidBytes
          · rw [if_pos hnv] at h
            right
            have hr : r = offset := by
              have := Option.some.inj h; omega
            subst hr
            exact ⟨by omega, hnv⟩
          · rw [if_neg hnv] at h
            by_cases hffs : parseBinGUID data (offset.toNat + 16) = ffsGuidBytes
            · rw [if_pos hffs] at h; exact ih _ r h
            · rw [if_neg hffs] at h; exact ih _ r h
      · rw [if_neg hguard] at h
        left
        have := Option.some.inj h
        omega

theorem parseVarstore_ne_notFound (data : List Nat) (s : Nat) :
    parseVarstore data s ≠ Except.error VErr.notFound := by
  unfold parseVarstore
  dsimp only
  split
  · simp
  · split
    · simp
    · split <;> simp

/-- C7, counterexample: `cImg7` carries the NvData GUID at a candidate the
scan reaches (offset 0, so the buffer is not exhausted and `findNvData`
returns the match), yet parsing fails with the not-found error because
`parseVolume` rejects every offset below 1. -/
theorem c7_counterexample :
    findNvData cImg7 = some 0 ∧
    parseVolume cImg7 = some (Except.error VErr.notFound) := by
  constructor
  · decide
  · decide

/-- C7 (amended): on every terminating scan, parsing fails with the
not-found error exactly when the scan yields an offset below 1 — both on
exhaustion (result −1) and on a match at offset 0; a result at a positive
offset always carries the NvData GUID at its +16 bytes, and the scan's
result is either −1 or a non-negative matching offset. -/
theorem c7_locate_not_found (data : List Nat) (r : Int)
    (hscan : findNvData data = some r) :
    (parseVolume data = some (Except.error VErr.notFound) ↔ r < 1) ∧
    (1 ≤ r → parseBinGUID data (r.toNat + 16) = nvDataGuidBytes) ∧
    (r = -1 ∨ 0 ≤ r) := by
  have hsound := findNvDataAux_sound data (data.length + 1) 0 r hscan
  refine ⟨?_, ?_, ?_⟩
  · unfold parseVolume
    rw [hscan, Option.map_some']
    constructor
    · intro h
      by_contra hr1
      rw [if_neg hr1] at h
      have h2 := Option.some.inj h
      dsimp only at h2
      by_cases hsig : rd data (r.toNat + 40) 4 ≠ 0x4856465f
      · rw [if_pos hsig] at h2; exact absurd h2 (by simp)
      · rw [if_neg hsig] at h2
        by_cases hguid : parseBinGUID data (r.toNat + 16) ≠ nvDataGuidBytes
        · rw [if_pos hguid] at h2; exact absurd h2 (by simp)
        · rw [if_neg hguid] at h2
          exact parseVarstore_ne_notFound data _ h2
    · intro hr
      rw [if_pos hr]
  · intro hr
    rcases hsound with h1 | ⟨_, h2⟩
    · omega
    · exact h2
  · rcases hsound with h1 | ⟨h2, _⟩
    · exact Or.inl h1
    · exact Or.inr h2

/-- C7, witness: the amended characterization applied to `cImg7`, whose scan
returns offset 0. -/
theorem c7_witness :
    parseVolume cImg7 = some (Except.error VErr.notFound) :=
  (c7_locate_not_found cImg7 0 (by decide)).1.mpr (by norm_num)

/-! ### Claims C3 and C9: the record walk -/

theorem getVarListAux_stop (data : List Nat) (endPos fuel pos : Nat)
    (acc : EfiVarList) (h : ¬ pos < endPos) :
    getVarListAux data endPos fuel pos acc = acc := by
  cases fuel with
  | zero => rfl
  | succ f => rw [getVarListAux, if_neg h]

theorem getVarListAux_step (data : List Nat) (endPos fuel pos : Nat)
    (acc : EfiVarList) (hlt : pos < endPos) :
    getVarListAux data endPos (fuel + 1) pos acc =
      if rd data pos 2 = 0x55aa then
        getVarListAux data endPos fuel
          (align4 (pos + 44 + 16 + rd data (pos + 36) 4 +
            rd data (pos + 40) 4))
          (if data.getD (pos + 2) 0 = 0x3f then
            insertVar acc (parseVar data pos).Name (parseVar data pos)
          else acc)
      else acc := by
  rw [getVarListAux, if_pos hlt]

/-- C3: one step of the record walk, exactly as the claim describes it.  The
walk starts at the region start (`getVarList data start endPos` runs
`getVarListAux` from `start` with the empty collection); at each position
inside the region it stops on the first magic that is not 0x55aa; on a magic
match it advances the cursor to the round-up of
`pos + 44 + 16 + name_size + data_size` to the next multiple of 4 (the
unique multiple of 4 in `[adv, adv + 4)`), inserting the decoded record
keyed by its name only when the state byte is 0x3f, and counting the
record's bytes either way. -/
theorem c3_record_walk (data : List Nat) (endPos fuel pos : Nat)
    (acc : EfiVarList) :
    (¬ pos < endPos → getVarListAux data endPos (fuel + 1) pos acc = acc) ∧
    (pos < endPos → rd data pos 2 ≠ 0x55aa →
      getVarListAux data endPos (fuel + 1) pos acc = acc) ∧
    (pos < endPos → rd data pos 2 = 0x55aa →
      4 ∣ align4 (pos + 44 + 16 + rd data (pos + 36) 4 +
          rd data (pos + 40) 4) ∧
      pos + 44 + 16 + rd data (pos + 36) 4 + rd data (pos + 40) 4 ≤
        align4 (pos + 44 + 16 + rd data (pos + 36) 4 +
          rd data (pos + 40) 4) ∧
      align4 (pos + 44 + 16 + rd data (pos + 36) 4 + rd data (pos + 40) 4) <
        pos + 44 + 16 + rd data (pos + 36) 4 + rd data (pos + 40) 4 + 4 ∧
      (data.getD (pos + 2) 0 ≠ 0x3f →
        getVarListAux data endPos (fuel + 1) pos acc =
          getVarListAux data endPos fuel
            (align4 (pos + 44 + 16 + rd data (pos + 36) 4 +
              rd data (pos + 40) 4)) acc) ∧
      (data.getD (pos + 2) 0 = 0x3f →
        getVarListAux data endPos (fuel + 1) pos acc =
          getVarListAux data endPos fuel
            (align4 (pos + 44 + 16 + rd data (pos + 36) 4 +
              rd data (pos + 40) 4))
            (insertVar acc (parseVar data pos).Name
              (parseVar data pos)))) := by
  refine ⟨?_, ?_, ?_⟩
  · intro h
    exact getVarListAux_stop data endPos (fuel + 1) pos acc h
  · intro hlt hm
    rw [getVarListAux_step data endPos fuel pos acc hlt, if_neg hm]
  · intro hlt hm
    refine ⟨align4_dvd _, align4_ge _, align4_lt _, ?_, ?_⟩
    · intro hs
      rw [getVarListAux_step data endPos fuel pos acc hlt, if_pos hm,
        if_neg hs]
    · intro hs
      rw [getVarListAux_step data endPos fuel pos acc hlt, if_pos hm,
        if_pos hs]

/-- C3, witness: the walk stops immediately on a buffer whose first magic is
not 0x55aa. -/
theorem c3_witness : getVarListAux [] 4 1 0 [] = [] :=
  (c3_record_walk [] 4 0 0 []).2.1 (by norm_num) (by decide)

/-- C9, counterexample: the 64-byte buffer `bytesVar cVarB` viewed as a
variable region `[0, 60)` holds a live record (magic 0x55aa, state 0x3f)
whose declared name size extends past the region's end (its raw length is 64
> 60); the claim says parsing fails with `MalformedRecord`, but `GetVarList`
performs no bounds check: it succeeds, returning the record with its name
bytes read from beyond the region (the Go function's error result is `nil`
on every path). -/
theorem c9_counterexample :
    60 < rawLen cVarB ∧
    getVarList (bytesVar cVarB) 0 60 = [([0x42], cVarB)] := by
  constructor
  · decide
  · decide

/-- C9 (amended): the parser has no bounds check against the region: for
every well-formed record whose serialized form extends past the region's end
while staying inside the buffer, the walk parses it anyway — returning the
record (keyed by its name, with bytes taken from beyond `endPos`) and no
error. -/
theorem c9_no_bounds_check (v : EfiVar) (endPos : Nat)
    (hwf : WfVar v) (htime : v.Time = none)
    (h0 : 0 < endPos) (hover : endPos < rawLen v)
    (hblen : (bytesVar v).length < 2 ^ 32) :
    getVarList (bytesVar v) 0 endPos = [(v.Name, v)] := by
  have hg : v.Guid.length = 16 := hwf.1
  have hbv : (bytesVar v).length = align4 (rawLen v) := bytesVar_length v hg
  have hraw_lt : rawLen v < 2 ^ 32 := by
    have := align4_ge (rawLen v)
    omega
  have hdata : bytesVar v = [] ++ bytesVar v ++ [] := by simp
  have hmagic : rd (bytesVar v) 0 2 = 0x55aa := by
    have h := bytesVar_magic [] [] v
    simpa using h
  have hstate : (bytesVar v).getD 2 0 = 0x3f := by
    have h := bytesVar_state [] [] v
    simpa using h
  have hns : rd (bytesVar v) 36 4 = nameSize v.Name := by
    have h := bytesVar_nsize [] [] v (by unfold rawLen at hraw_lt; omega)
    simpa using h
  have hds : rd (bytesVar v) 40 4 = v.Data.length := by
    have h := bytesVar_dsize [] [] v (by unfold rawLen at hraw_lt; omega)
    simpa using h
  have hparse : parseVar (bytesVar v) 0 = v := by
    have h := parseVar_encode [] [] v hwf htime (by simpa using hraw_lt)
    simpa using h
  unfold getVarList
  have hfuel : endPos - 0 + 1 = (endPos - 1) + 1 + 1 := by omega
  rw [hfuel]
  rw [getVarListAux_step (bytesVar v) endPos ((endPos - 1) + 1) 0 []
    (by omega), if_pos hmagic]
  have hstate2 : ((bytesVar v).getD (0 + 2) 0 = 0x3f) := by simpa using hstate
  rw [if_pos hstate2]
  have hns2 : rd (bytesVar v) (0 + 36) 4 = nameSize v.Name := by simpa using hns
  have hds2 : rd (bytesVar v) (0 + 40) 4 = v.Data.length := by simpa using hds
  have hparse2 : parseVar (bytesVar v) 0 = v := hparse
  rw [hns2, hds2, hparse2]
  have hnext : ¬ align4 (0 + 44 + 16 + nameSize v.Name + v.Data.length) <
      endPos := by
    have h1 : 0 + 44 + 16 + nameSize v.Name + v.Data.length = rawLen v := by
      unfold rawLen; omega
    rw [h1]
    have := align4_ge (rawLen v)
    omega
  rw [getVarListAux_stop _ _ _ _ _ hnext]
  rfl

/-- C9, witness: the amended no-bounds-check behaviour at the concrete
record "B" and region end 60. -/
theorem c9_witness : getVarList (bytesVar cVarB) 0 60 = [(cVarB.Name, cVarB)] :=
  c9_no_bounds_check cVarB 60 (by unfold WfVar; decide) rfl (by norm_num)
    (by decide) (by decide)

/-! ### Claim C10: the boot_order typed view -/

theorem rd_two_shift (a b : Nat) (t : List Nat) (pos : Nat) :
    rd (a :: b :: t) ((pos + 1) * 2) 2 = rd t (pos * 2) 2 := by
  have h : (pos + 1) * 2 = (pos * 2 + 1) + 1 := by omega
  rw [h, rd_shift, rd_shift]

theorem bootOrder_pairs :
    ∀ l : List Nat,
      (List.range (l.length / 2)).map (fun pos => rd l (pos * 2) 2) =
        decodeU16Pairs (l.take (2 * (l.length / 2)))
  | [] => by simp [decodeU16Pairs]
  | [a] => by simp [decodeU16Pairs]
  | a :: b :: t => by
      have hlen : (a :: b :: t).length / 2 = t.length / 2 + 1 := by
        simp [List.length_cons]
        omega
      rw [hlen, List.range_succ_eq_map, List.map_cons, List.map_map]
      have hhead : rd (a :: b :: t) (0 * 2) 2 = a + 256 * b := by
        simp [rd]
      have htail :
          (List.range (t.length / 2)).map
            ((fun pos => rd (a :: b :: t) (pos * 2) 2) ∘ Nat.succ) =
          (List.range (t.length / 2)).map (fun pos => rd t (pos * 2) 2) := by
        apply List.map_congr_left
        intro i _
        show rd (a :: b :: t) ((i + 1) * 2) 2 = rd t (i * 2) 2
        exact rd_two_shift a b t i
      rw [hhead, htail, bootOrder_pairs t]
      have htake : (a :: b :: t).take (2 * (t.length / 2 + 1)) =
          a :: b :: t.take (2 * (t.length / 2)) := by
        have h2 : 2 * (t.length / 2 + 1) = 2 * (t.length / 2) + 1 + 1 := by
          omega
        rw [h2]
        simp
      rw [htake]
      rfl

/-- C10, counterexample: reading the boot_order view of a variable whose
data has odd length 1 does not fail — the claim's `OddLength` error does not
exist in the code (`GetBootOrder` returns `nil` for its error on every path);
the view returns the empty sequence, silently ignoring the trailing byte. -/
theorem c10_counterexample :
    getBootOrderVar
      { Name := [], Guid := [], Attr := 0, Data := [1], Count := 0,
        Time := none, PkIdx := 0 } = [] := by
  decide

/-- C10 (amended): the boot_order view never fails; it decodes the first
`2 * (len / 2)` bytes of the data as consecutive little-endian u16 pairs,
ignoring a trailing odd byte; in particular for even-length data it returns
the sequence of little-endian u16 values of all consecutive byte pairs, as
the claim states for the even case. -/
theorem c10_boot_order_view (v : EfiVar) :
    getBootOrderVar v =
      decodeU16Pairs (v.Data.take (2 * (v.Data.length / 2))) ∧
    (v.Data.length % 2 = 0 → getBootOrderVar v = decodeU16Pairs v.Data) := by
  constructor
  · exact bootOrder_pairs v.Data
  · intro heven
    unfold getBootOrderVar
    rw [bootOrder_pairs v.Data]
    have h : 2 * (v.Data.length / 2) = v.Data.length := by omega
    rw [h, List.take_length]

/-- C10, witness: the amended view on concrete even-length data. -/
theorem c10_witness :
    getBootOrderVar
      { Name := [], Guid := [], Attr := 0, Data := [0x99, 0x00, 0x01, 0x02],
        Count := 0, Time := none, PkIdx := 0 } =
    decodeU16Pairs [0x99, 0x00, 0x01, 0x02] :=
  (c10_boot_order_view
    { Name := [], Guid := [], Attr := 0, Data := [0x99, 0x00, 0x01, 0x02],
      Count := 0, Time := none, PkIdx := 0 }).2 (by decide)

/-! ### Claim C6: record encode/decode round-trip -/

/-- A record carrying a timestamp with 2,000,000 nanoseconds (2 ms). -/
def cVarNs : EfiVar :=
  { Name := [0x41], Guid := globalVariableGuidBytes, Attr := 7, Data := [],
    Count := 0, Time := some ⟨2024, 1, 2, 3, 4, 5, 2000000⟩, PkIdx := 0 }

/-- C6 (code bug, evaluated at the failing input): decoding the encoding of
`cVarNs` reproduces every field except the EFI_TIME nanosecond, which comes
back as 2 instead of 2,000,000: `BytesTime` stores the nanoseconds divided
by 1000 and `ParseTime` divides the stored field by 1000 again, so the two
halves of the codec are mutually inconsistent and
`decode(encode(R)) ≠ R` for every record whose time has nanoseconds ≥ 10^6
(both functions are commented as transliterations of the same Python
`struct` layout, where the field round-trips). -/
theorem c6_time_ns_lost :
    parseVar (bytesVar cVarNs) 0 =
      { cVarNs with Time := some ⟨2024, 1, 2, 3, 4, 5, 2⟩ } ∧
    parseVar (bytesVar cVarNs) 0 ≠ cVarNs := by
  constructor
  · decide
  · decide

/-! ### Claim C4: VarstoreOverflow -/

/-- Total encoded size of a collection, stated arithmetically: each record
contributes its raw length `60 + name_size + data_size` rounded up to a
multiple of 4. -/
def encodedSize (vl : EfiVarList) : Nat :=
  (vl.map fun p => align4 (rawLen p.2)).sum

theorem insortKey_perm (k : List Nat) (l : List (List Nat)) :
    (insortKey k l).Perm (k :: l) := by
  induction l with
  | nil => exact List.Perm.refl _
  | cons j t ih =>
      unfold insortKey
      by_cases h : lexLe k j = true
      · rw [if_pos h]
      · rw [if_neg h]
        exact (List.Perm.cons j ih).trans (List.Perm.swap k j t)

theorem sortKeys_perm (l : List (List Nat)) : (sortKeys l).Perm l := by
  induction l with
  | nil => exact List.Perm.refl _
  | cons k t ih =>
      unfold sortKeys
      exact (insortKey_perm k (sortKeys t)).trans (List.Perm.cons k ih)

theorem lookup_len_sum (vl : EfiVarList)
    (hnodup : (vl.map Prod.fst).Nodup)
    (hg : ∀ p ∈ vl, p.2.Guid.length = 16) :
    ((vl.map Prod.fst).map fun k =>
      (match lookupVar vl k with
       | some v => bytesVar v
       | none => ([] : List Nat)).length).sum = encodedSize vl := by
  induction vl with
  | nil => rfl
  | cons p t ih =>
      rw [List.map_cons, List.map_cons, List.sum_cons]
      have hnd := List.nodup_cons.mp hnodup
      have hhead : (match lookupVar (p :: t) p.1 with
          | some v => bytesVar v
          | none => ([] : List Nat)).length = align4 (rawLen p.2) := by
        rw [lookupVar_head]
        exact bytesVar_length p.2 (hg p (List.mem_cons_self p t))
      have htail : (t.map Prod.fst).map (fun k =>
          (match lookupVar (p :: t) k with
           | some v => bytesVar v
           | none => ([] : List Nat)).length) =
          (t.map Prod.fst).map (fun k =>
          (match lookupVar t k with
           | some v => bytesVar v
           | none => ([] : List Nat)).length) := by
        apply List.map_congr_left
        intro k hk
        have hne : p.1 ≠ k := fun hh => hnd.1 (hh ▸ hk)
        rw [lookupVar_of_ne p t k hne]
      rw [hhead, htail,
        ih hnd.2 (fun q hq => hg q (List.mem_cons_of_mem p hq))]
      rfl

theorem bytesVarList_blob_length (vl : EfiVarList)
    (hnodup : (vl.map Prod.fst).Nodup)
    (hg : ∀ p ∈ vl, p.2.Guid.length = 16) :
    ((sortKeys (vl.map Prod.fst)).flatMap fun k =>
      match lookupVar vl k with
      | some v => bytesVar v
      | none => ([] : List Nat)).length = encodedSize vl := by
  rw [List.length_flatMap]
  have hperm := (sortKeys_perm (vl.map Prod.fst)).map fun k =>
    (match lookupVar vl k with
     | some v => bytesVar v
     | none => ([] : List Nat)).length
  have hcomp : (List.length ∘ fun k =>
      match lookupVar vl k with
      | some v => bytesVar v
      | none => ([] : List Nat)) = (fun k =>
      (match lookupVar vl k with
       | some v => bytesVar v
       | none => ([] : List Nat)).length) := rfl
  rw [hcomp, hperm.sum_eq]
  exact lookup_len_sum vl hnodup hg

/-- C4: the whole-collection encoder iterates keys in lexicographic order
and concatenates; it fails (with the VarstoreOverflow error, modelled as
`none`, producing no bytes) exactly when the total encoded size — the sum of
the records' 4-byte-aligned lengths — exceeds `endPos - start`; a successful
encoding's byte length is exactly that total, so a collection whose total is
exactly `endPos - start` succeeds and one byte larger fails; the assembled
store inherits the same failure condition, producing no output image on
overflow. -/
theorem c4_varstore_overflow (dataImg : List Nat) (start endPos : Nat)
    (vl : EfiVarList)
    (hnodup : (vl.map Prod.fst).Nodup)
    (hg : ∀ p ∈ vl, p.2.Guid.length = 16) :
    (bytesVarList start endPos vl = none ↔
      ((encodedSize vl : Int) > (endPos : Int) - (start : Int))) ∧
    (∀ b, bytesVarList start endPos vl = some b →
      b.length = encodedSize vl) ∧
    (bytesVarStore dataImg start endPos vl = none ↔
      ((encodedSize vl : Int) > (endPos : Int) - (start : Int))) := by
  have hlen := bytesVarList_blob_length vl hnodup hg
  have hmain : (bytesVarList start endPos vl = none ↔
      ((encodedSize vl : Int) > (endPos : Int) - (start : Int))) ∧
      (∀ b, bytesVarList start endPos vl = some b →
        b.length = encodedSize vl) := by
    unfold bytesVarList
    dsimp only
    rw [hlen]
    by_cases hc : ((encodedSize vl : Int) > (endPos : Int) - (start : Int))
    · rw [if_pos hc]
      exact ⟨by simp [hc], by simp⟩
    · rw [if_neg hc]
      refine ⟨by simp [hc], ?_⟩
      intro b hb
      have := Option.some.inj hb
      rw [← this]
      exact hlen
  refine ⟨hmain.1, hmain.2, ?_⟩
  unfold bytesVarStore
  rw [Option.map_eq_none']
  exact hmain.1

/-- C4, witness: the boundary behaviour at a concrete one-record collection
in a region of exactly its encoded size (64 bytes: success) and of one byte
less than needed elsewhere via the iff. -/
theorem c4_witness :
    (bytesVarList 0 64 [([0x41], cVarA)] = none ↔
      ((encodedSize [([0x41], cVarA)] : Int) > (64 : Int) - (0 : Int))) ∧
    bytesVarList 0 64 [([0x41], cVarA)] ≠ none := by
  have h := c4_varstore_overflow [] 0 64 [([0x41], cVarA)]
    (by decide) (by intro p hp; simp at hp; subst hp; decide)
  refine ⟨h.1, ?_⟩
  intro hnone
  exact absurd (h.1.mp hnone) (by decide)

/-! ### Claim C5: frame property of the store assembly -/

theorem getD_take_of_lt (l : List Nat) (n i : Nat) (h : i < n) :
    (l.take n).getD i 0 = l.getD i 0 := by
  simp only [List.getD_eq_getD_get?, List.get?_eq_getElem?]
  rw [List.getElem?_take_of_lt h]

theorem getD_drop (l : List Nat) (n i : Nat) :
    (l.drop n).getD i 0 = l.getD (n + i) 0 := by
  simp only [List.getD_eq_getD_get?, List.get?_eq_getElem?]
  rw [List.getElem?_drop]

theorem getD_append_right_sub (a b : List Nat) (i : Nat) (h : a.length ≤ i) :
    (a ++ b).getD i 0 = b.getD (i - a.length) 0 :=
  List.getD_append_right a b 0 i h

/-- C5: whenever the collection encodes within the region, the assembled
output image is `image[..start] ++ encoded ++ 0xFF padding to endPos ++
image[endPos..]`: the output has exactly the input's length, every byte
outside `[start, endPos)` is unchanged at the same offset, the encoded bytes
sit at `start`, and the gap up to `endPos` is 0xFF. -/
theorem c5_store_frame (data : List Nat) (start endPos : Nat)
    (vl : EfiVarList) (blob : List Nat)
    (hblob : bytesVarList start endPos vl = some blob)
    (hse : start ≤ endPos) (hend : endPos ≤ data.length) :
    ∀ out, bytesVarStore data start endPos vl = some out →
      out.length = data.length ∧
      (∀ i, i < start → out.getD i 0 = data.getD i 0) ∧
      (∀ i, endPos ≤ i → i < data.length → out.getD i 0 = data.getD i 0) ∧
      (∀ i, i < blob.length → out.getD (start + i) 0 = blob.getD i 0) ∧
      (∀ i, start + blob.length ≤ i → i < endPos → out.getD i 0 = 0xff) := by
  intro out hout
  have hfit : blob.length ≤ endPos - start := by
    unfold bytesVarList at hblob
    dsimp only at hblob
    by_cases hc : ((((sortKeys (vl.map Prod.fst)).flatMap fun k =>
        match lookupVar vl k with
        | some v => bytesVar v
        | none => ([] : List Nat)).length : Int) >
        (endPos : Int) - (start : Int))
    · rw [if_pos hc] at hblob
      exact absurd hblob (by simp)
    · rw [if_neg hc] at hblob
      have hb := Option.some.inj hblob
      rw [← hb]
      omega
  unfold bytesVarStore at hout
  rw [hblob, Option.map_some'] at hout
  have hout' := (Option.some.inj hout).symm
  have htakelen : (data.take start).length = start := by
    rw [List.length_take]
    omega
  have hdroplen : (data.drop endPos).length = data.length - endPos := by
    rw [List.length_drop]
  refine ⟨?_, ?_, ?_, ?_, ?_⟩
  · rw [hout']
    simp only [List.length_append, htakelen, hdroplen,
      List.length_replicate]
    omega
  · intro i hi
    rw [hout']
    rw [getD_append_left _ _ i (by
      simp only [List.length_append, htakelen, List.length_replicate]
      omega)]
    rw [getD_append_left _ _ i (by
      simp only [List.length_append, htakelen]
      omega)]
    rw [getD_append_left _ _ i (by rw [htakelen]; omega)]
    exact getD_take_of_lt data start i hi
  · intro i hi1 hi2
    rw [hout']
    have hplen : ((data.take start ++ blob ++
        List.replicate (endPos - (start + blob.length)) 0xff)).length =
        endPos := by
      simp only [List.length_append, htakelen, List.length_replicate]
      omega
    have hassoc : data.take start ++ blob ++
        List.replicate (endPos - (start + blob.length)) 0xff ++
        data.drop endPos =
        (data.take start ++ blob ++
          List.replicate (endPos - (start + blob.length)) 0xff) ++
        data.drop endPos := by
      simp [List.append_assoc]
    rw [hassoc,
      getD_append_right_sub _ _ i (by rw [hplen]; omega), hplen, getD_drop]
    have h3 : endPos + (i - endPos) = i := by omega
    rw [h3]
  · intro i hi
    rw [hout']
    have hassoc : data.take start ++ blob ++
        List.replicate (endPos - (start + blob.length)) 0xff ++
        data.drop endPos =
        data.take start ++ (blob ++
          (List.replicate (endPos - (start + blob.length)) 0xff ++
           data.drop endPos)) := by
      simp [List.append_assoc]
    rw [hassoc,
      getD_append_right_sub _ _ (start + i) (by rw [htakelen]; omega),
      htakelen]
    have h4 : start + i - start = i := by omega
    rw [h4, getD_append_left _ _ i hi]
  · intro i hi1 hi2
    rw [hout']
    have hassoc : data.take start ++ blob ++
        List.replicate (endPos - (start + blob.length)) 0xff ++
        data.drop endPos =
        (data.take start ++ blob) ++
          (List.replicate (endPos - (start + blob.length)) 0xff ++
           data.drop endPos) := by
      simp [List.append_assoc]
    have hablen : (data.take start ++ blob).length = start + blob.length := by
      simp [htakelen]
    rw [hassoc,
      getD_append_right_sub _ _ i (by rw [hablen]; omega), hablen,
      getD_append_left _ _ (i - (start + blob.length))
        (by rw [List.length_replicate]; omega)]
    have hlt : i - (start + blob.length) <
        endPos - (start + blob.length) := by omega
    simp [List.getD_eq_getD_get?, List.get?_eq_getElem?,
      List.getElem?_replicate, hlt]

/-- C5, witness: the frame property instantiated at a concrete store — the
empty collection over region `[4, 8)` of the 8-byte image `[1..8]`: output
length preserved, byte 2 unchanged, byte 5 filled with 0xFF. -/
theorem c5_witness :
    ([1, 2, 3, 4, 255, 255, 255, 255] : List Nat).length =
      ([1, 2, 3, 4, 5, 6, 7, 8] : List Nat).length ∧
    ([1, 2, 3, 4, 255, 255, 255, 255] : List Nat).getD 2 0 =
      ([1, 2, 3, 4, 5, 6, 7, 8] : List Nat).getD 2 0 ∧
    ([1, 2, 3, 4, 255, 255, 255, 255] : List Nat).getD 5 0 = 0xff := by
  have h := c5_store_frame [1, 2, 3, 4, 5, 6, 7, 8] 4 8 [] []
    (by decide) (by norm_num) (by norm_num)
    [1, 2, 3, 4, 255, 255, 255, 255] (by decide)
  exact ⟨h.1.symm ▸ h.1, h.2.1 2 (by norm_num),
    h.2.2.2.2 5 (by norm_num) (by norm_num)⟩

/-! ### Claim C8: the time-update rule -/

/-- max(current_time, old_time) with an absent old time treated as minimal —
the value `updateTime` is claimed to store. -/
def timeMax (old : Option EfiTime) (now : EfiTime) : EfiTime :=
  match old with
  | none => now
  | some o => if timeLt o now then now else o

theorem timeLt_asymm' (a b : EfiTime) (h : timeLt a b) : ¬ timeLt b a := by
  unfold timeLt at *
  omega

theorem timeLt_irrefl' (a : EfiTime) : ¬ timeLt a a := by
  unfold timeLt
  omega

/-- C8: every typed setter (SetBool, SetString, SetUint32, SetBootEntry,
SetBootNext, SetBootOrder, AppendBootOrder, SetFromFile) changes the
variable's time exactly as `updateTime` does; when the attributes lack the
time-based-authenticated-write bit (0x20) the time is left unchanged, and
when the bit is set the stored time becomes max(current_time, old_time), so
an existing time never moves backward. -/
theorem c8_time_update (v : EfiVar) (now : EfiTime) (b : Bool)
    (s entry order contents : List Nat) (u idx : Nat) :
    ((setBool v b now).Time = (updateTime v now).Time ∧
     (setString v s now).Time = (updateTime v now).Time ∧
     (setUint32 v u now).Time = (updateTime v now).Time ∧
     (setBootEntryData v entry now).Time = (updateTime v now).Time ∧
     (setBootNext v idx now).Time = (updateTime v now).Time ∧
     (setBootOrder v order now).Time = (updateTime v now).Time ∧
     (appendBootOrder v idx now).Time = (updateTime v now).Time ∧
     (setFromFile v contents now).Time = (updateTime v now).Time) ∧
    (v.Attr &&& 0x20 = 0 → (updateTime v now).Time = v.Time) ∧
    (v.Attr &&& 0x20 ≠ 0 →
      (updateTime v now).Time = some (timeMax v.Time now) ∧
      ∀ t, v.Time = some t → ¬ timeLt (timeMax v.Time now) t) := by
  obtain ⟨N, G, A, D, C, T, P⟩ := v
  have hsetters : ∀ d : List Nat,
      (updateTime (EfiVar.mk N G A d C T P) now).Time =
      (updateTime (EfiVar.mk N G A D C T P) now).Time := by
    intro d
    unfold updateTime
    by_cases h : A &&& 0x20 = 0
    · rw [if_pos h, if_pos h]
    · rw [if_neg h, if_neg h]
      cases T with
      | none => rfl
      | some old =>
          dsimp only
          by_cases hlt : timeLt old now
          · rw [if_pos hlt, if_pos hlt]
          · rw [if_neg hlt, if_neg hlt]
  refine ⟨⟨?_, ?_, ?_, ?_, ?_, ?_, ?_, ?_⟩, ?_, ?_⟩
  · exact hsetters _
  · exact hsetters _
  · exact hsetters _
  · exact hsetters _
  · exact hsetters _
  · exact hsetters _
  · exact hsetters _
  · exact hsetters _
  · intro h
    unfold updateTime
    rw [if_pos h]
  · intro h
    unfold updateTime
    rw [if_neg h]
    constructor
    · cases T with
      | none => rfl
      | some old =>
          dsimp only
          by_cases hlt : timeLt old now
          · rw [if_pos hlt]
            simp [timeMax, hlt]
          · rw [if_neg hlt]
            simp [timeMax, hlt]
    · intro t ht
      simp only at ht
      rw [ht]
      simp only [timeMax]
      by_cases hlt : timeLt t now
      · rw [if_pos hlt]
        exact timeLt_asymm' t now hlt
      · rw [if_neg hlt]
        exact timeLt_irrefl' t

/-- C8, witness: the rule instantiated on a variable with the
time-based-auth bit set and a stale timestamp, mutated through SetUint32 at
a later wall-clock time. -/
theorem c8_witness :
    (setUint32
      { Name := [0x41], Guid := [], Attr := 0x27, Data := [], Count := 0,
        Time := some ⟨2020, 1, 1, 0, 0, 0, 0⟩, PkIdx := 0 } 5
      ⟨2024, 1, 1, 0, 0, 0, 0⟩).Time =
    (updateTime
      { Name := [0x41], Guid := [], Attr := 0x27, Data := [], Count := 0,
        Time := some ⟨2020, 1, 1, 0, 0, 0, 0⟩, PkIdx := 0 }
      ⟨2024, 1, 1, 0, 0, 0, 0⟩).Time ∧
    (updateTime
      { Name := [0x41], Guid := [], Attr := 0x27, Data := [], Count := 0,
        Time := some ⟨2020, 1, 1, 0, 0, 0, 0⟩, PkIdx := 0 }
      ⟨2024, 1, 1, 0, 0, 0, 0⟩).Time =
    some (timeMax (some ⟨2020, 1, 1, 0, 0, 0, 0⟩) ⟨2024, 1, 1, 0, 0, 0, 0⟩) := by
  have h := c8_time_update
    { Name := [0x41], Guid := [], Attr := 0x27, Data := [], Count := 0,
      Time := some ⟨2020, 1, 1, 0, 0, 0, 0⟩, PkIdx := 0 }
    ⟨2024, 1, 1, 0, 0, 0, 0⟩ true [] [] [] [] 5 0
  exact ⟨h.1.2.2.1, (h.2.2 (by decide)).1⟩

/-! ### Claim C2: the PXE synthesizer -/

/-- The claim's rendering of a hex digit: uppercase, `0-9A-F`. -/
def upperHexDigit (n : Nat) : Nat := if n < 10 then 48 + n else 55 + n

/-- The claim's rendering of a MAC: uppercase colon-separated hex pairs. -/
def macColonHexUpper : List Nat → List Nat
  | [] => []
  | [b] => [upperHexDigit (b / 16), upperHexDigit (b % 16)]
  | b :: t => [upperHexDigit (b / 16), upperHexDigit (b % 16), 58] ++
      macColonHexUpper t

theorem hexTable_digit :
    ∀ n, n < 16 → hexTableBytes.getD n 0 = upperHexDigit n := by
  decide

theorem macHexLoop_false_eq (t : List Nat) :
    macHexLoop t false =
      (t.map fun b => [58, hexTableBytes.getD (b / 16) 0,
        hexTableBytes.getD (b % 16) 0]).flatten := by
  induction t with
  | nil => rfl
  | cons b t ih =>
      simp only [macHexLoop, List.map_cons, List.flatten_cons, ih]
      rfl

theorem macColonHexUpper_flatten :
    ∀ t : List Nat,
      macColonHexUpper t =
        match t with
        | [] => []
        | b :: t' =>
            [upperHexDigit (b / 16), upperHexDigit (b % 16)] ++
            (t'.map fun c => [58, upperHexDigit (c / 16),
              upperHexDigit (c % 16)]).flatten
  | [] => rfl
  | [b] => by simp [macColonHexUpper]
  | b :: c :: t => by
      have ih := macColonHexUpper_flatten (c :: t)
      simp only [macColonHexUpper] at ih ⊢
      rw [ih]
      simp [List.append_assoc]

theorem macHexLoop_eq (mac : List Nat) (hbytes : ∀ b ∈ mac, b < 256) :
    macHexLoop mac true = macColonHexUpper mac := by
  cases mac with
  | nil => rfl
  | cons b t =>
      rw [macColonHexUpper_flatten]
      have hb := hbytes b (List.mem_cons_self b t)
      simp only [macHexLoop, macHexLoop_false_eq]
      rw [hexTable_digit (b / 16) (by omega), hexTable_digit (b % 16)
        (by omega)]
      have hmap : t.map (fun c => [58, hexTableBytes.getD (c / 16) 0,
          hexTableBytes.getD (c % 16) 0]) =
          t.map fun c => [58, upperHexDigit (c / 16),
            upperHexDigit (c % 16)] := by
        apply List.map_congr_left
        intro c hc
        have hcb := hbytes c (List.mem_cons_of_mem b hc)
        rw [hexTable_digit (c / 16) (by omega), hexTable_digit (c % 16)
          (by omega)]
      rw [hmap]
      rfl

theorem lookupVar_insertVar_self (acc : EfiVarList) (k : List Nat)
    (v : EfiVar) : lookupVar (insertVar acc k v) k = some v := by
  induction acc with
  | nil => simp [insertVar, lookupVar]
  | cons p t ih =>
      unfold insertVar
      by_cases hp : p.1 = k
      · rw [if_pos hp]
        simp [lookupVar]
      · rw [if_neg hp]
        unfold lookupVar
        rw [if_neg hp]
        exact ih

theorem lookupVar_insertVar_other (acc : EfiVarList) (k k' : List Nat)
    (v : EfiVar) (hne : k' ≠ k) :
    lookupVar (insertVar acc k' v) k = lookupVar acc k := by
  induction acc with
  | nil => simp [insertVar, lookupVar, hne]
  | cons p t ih =>
      unfold insertVar
      by_cases hp : p.1 = k'
      · rw [if_pos hp]
        unfold lookupVar
        rw [if_neg hne, if_neg (fun hh => hne ((hp.symm.trans hh)))]
      · rw [if_neg hp]
        unfold lookupVar
        by_cases hq : p.1 = k
        · rw [if_pos hq, if_pos hq]
        · rw [if_neg hq, if_neg hq]
          exact ih

/-- C2: for every base collection and 6-byte MAC, the synthesizer inserts a
record keyed `Boot0099` whose data is the load option with attributes
LOAD_OPTION_ACTIVE (1), the title "UEFI PXEv4 (MAC:..)" rendered from the
MAC as uppercase colon-separated hex, the MAC/IPv4 device path and the fixed
16-byte optional data `pxeOptData`, and a record keyed `BootNext` with data
`[0x99, 0x00]`; both records carry attributes NV|BS|RT (7) and the EFI
global-variable GUID.  For a MAC whose length is not 6, the title takes the
fallback branch: the platform's default hex-with-colons rendering
(`net.HardwareAddr.String`), uppercased. -/
theorem c2_pxe_synthesizer (base : EfiVarList) (mac : List Nat)
    (hbytes : ∀ b ∈ mac, b < 256) :
    (mac.length = 6 →
      lookupVar (pxeVars base mac) (strBytes "Boot0099") = some
        { Name := strBytes "Boot0099", Guid := globalVariableGuidBytes,
          Attr := 7,
          Data := bytesLoadOption 1
            (strBytes "UEFI PXEv4 (MAC:" ++ macColonHexUpper mac ++
              strBytes ")")
            (pxeDevicePath mac) pxeOptData,
          Count := 0, Time := none, PkIdx := 0 }) ∧
    lookupVar (pxeVars base mac) (strBytes "BootNext") = some
      { Name := strBytes "BootNext", Guid := globalVariableGuidBytes,
        Attr := 7, Data := [0x99, 0x00], Count := 0, Time := none,
        PkIdx := 0 } ∧
    (mac.length = 6 →
      formatMACTitle mac =
        strBytes "UEFI PXEv4 (MAC:" ++ macColonHexUpper mac ++
          strBytes ")") ∧
    (mac.length ≠ 6 →
      formatMACTitle mac =
        strBytes "UEFI PXEv4 (MAC:" ++ toUpperAscii (goMacString mac) ++
          strBytes ")") := by
  have htitle : mac.length = 6 →
      formatMACTitle mac =
        strBytes "UEFI PXEv4 (MAC:" ++ macColonHexUpper mac ++
          strBytes ")" := by
    intro h6
    unfold formatMACTitle
    rw [if_neg (by omega)]
    rw [macHexLoop_eq mac hbytes]
  have hne : strBytes "BootNext" ≠ strBytes "Boot0099" := by decide
  refine ⟨?_, ?_, htitle, ?_⟩
  · intro h6
    unfold pxeVars
    dsimp only
    rw [← htitle h6]
    rw [lookupVar_insertVar_other _ _ _ _ hne]
    exact lookupVar_insertVar_self _ _ _
  · unfold pxeVars
    dsimp only
    exact lookupVar_insertVar_self _ _ _
  · intro hne6
    unfold formatMACTitle
    rw [if_pos hne6]

/-- C2, witness: the synthesizer on the empty base collection and the MAC
AA:BB:CC:DD:EE:FF. -/
theorem c2_witness :
    lookupVar (pxeVars [] [0xaa, 0xbb, 0xcc, 0xdd, 0xee, 0xff])
      (strBytes "BootNext") = some
      { Name := strBytes "BootNext", Guid := globalVariableGuidBytes,
        Attr := 7, Data := [0x99, 0x00], Count := 0, Time := none,
        PkIdx := 0 } ∧
    formatMACTitle [0xaa, 0xbb, 0xcc, 0xdd, 0xee, 0xff] =
      strBytes "UEFI PXEv4 (MAC:" ++
        macColonHexUpper [0xaa, 0xbb, 0xcc, 0xdd, 0xee, 0xff] ++
        strBytes ")" := by
  have h := c2_pxe_synthesizer [] [0xaa, 0xbb, 0xcc, 0xdd, 0xee, 0xff]
    (by decide)
  exact ⟨h.2.1, h.2.2.1 (by decide)⟩

end UefiFw
